import Mathlib

/-!
Verification of `scripts/extract_schema.py`.

The script has two parts:

* `simplify_schema_for_llm(schema)` — a recursive transform over a JSON-like
  structure (nested Python dicts / lists / strings / numbers / booleans / None)
  that deletes a `pattern` key whose value has `len > 50` and truncates an
  `anyOf` value with `len > 5` to its first three entries, then recurses into
  dict values and into dict elements of list values.

* `extract_schemas()` — a batch loop over a fixed registry of models that
  exports each model's JSON schema, simplifies it, writes an individual file,
  and finally writes a combined file and a summary file.

Python values are embedded as the `Json` inductive below; Python dicts are
association lists with distinct keys (distinctness is stated as a hypothesis
where it matters).  A raised exception is embedded as `Except.error`; the only
exceptions the transform itself can raise are `TypeError`s from `len()` on an
unsized value and from slicing an unsliceable value, so `Except.error`
coincides with "raises a TypeError" for the transform.
-/

/-! ### Definitions: the embedded data model and operations. -/

/-- A JSON-like Python value: `None`, `bool`, a number, `str`, `list`, `dict`.
Dicts are insertion-ordered association lists, as in Python. -/
inductive Json : Type where
  | null : Json
  | bool : Bool → Json
  | num : Int → Json
  | str : String → Json
  | arr : List Json → Json
  | obj : List (String × Json) → Json

mutual

/-- Size of a `Json` tree (used as a fuel bound for the recursive transform). -/
def jsize : Json → Nat
  | .arr l => lsize l + 1
  | .obj es => esize es + 1
  | _ => 1

/-- Size of a list of `Json` trees. -/
def lsize : List Json → Nat
  | [] => 0
  | j :: r => jsize j + lsize r + 1

/-- Size of an association list of `Json` trees. -/
def esize : List (String × Json) → Nat
  | [] => 0
  | (_, v) :: r => jsize v + esize r + 1

end

/-- Python's `len` on an embedded value: defined on `str`, `list`, `dict`;
raises `TypeError` otherwise. -/
def pyLen : Json → Except String Nat
  | .str s => .ok s.length
  | .arr l => .ok l.length
  | .obj es => .ok es.length
  | _ => .error "TypeError: object has no len()"

/-- Python's `x[:3]` on an embedded value: the first three characters of a
string or the first three elements of a list; raises `TypeError` on a dict
(`unhashable type: slice`) and on anything else. -/
def pySlice3 : Json → Except String Json
  | .str s => .ok (.str (String.mk (s.toList.take 3)))
  | .arr l => .ok (.arr (l.take 3))
  | _ => .error "TypeError: unhashable type: slice"

/-- First value stored under key `k` (Python dict lookup; dicts have unique
keys, for which first-match lookup is exact). -/
def findVal (k : String) : List (String × Json) → Option Json
  | [] => none
  | (k2, v) :: rest => if k2 = k then some v else findVal k rest

/-- `del d[k]`: remove the first entry with key `k` (the only one for a
Python dict). -/
def removeKey (k : String) : List (String × Json) → List (String × Json)
  | [] => []
  | (k2, v) :: rest => if k2 = k then rest else (k2, v) :: removeKey k rest

/-- `d[k] = v` for a key already present: replace the value at the first
entry with key `k`, keeping its position (Python dict assignment semantics). -/
def setKey (k : String) (v : Json) : List (String × Json) → List (String × Json)
  | [] => []
  | (k2, w) :: rest => if k2 = k then (k2, v) :: rest else (k2, w) :: setKey k v rest

/-- Lines 44-47 of `extract_schema.py`:
`if 'pattern' in schema and len(schema.get('pattern', '')) > 50: del schema['pattern']`. -/
def patternStep (es : List (String × Json)) : Except String (List (String × Json)) :=
  match findVal "pattern" es with
  | none => .ok es
  | some v =>
      match pyLen v with
      | .error e => .error e
      | .ok n => if 50 < n then .ok (removeKey "pattern" es) else .ok es

/-- Lines 49-52 of `extract_schema.py`:
`if 'anyOf' in schema and len(schema['anyOf']) > 5: schema['anyOf'] = schema['anyOf'][:3]`. -/
def anyOfStep (es : List (String × Json)) : Except String (List (String × Json)) :=
  match findVal "anyOf" es with
  | none => .ok es
  | some v =>
      match pyLen v with
      | .error e => .error e
      | .ok n =>
          if 5 < n then
            match pySlice3 v with
            | .error e => .error e
            | .ok w => .ok (setKey "anyOf" w es)
          else .ok es

/-- The per-element treatment inside the list comprehension on line 59:
`simplify_schema_for_llm(item) if isinstance(item, dict) else item`,
parameterised by the recursive call. -/
def itemStep (rec : Json → Except String Json) : Json → Except String Json
  | .obj es => rec (.obj es)
  | v => .ok v

/-- Process each element of a list value (line 59), parameterised by the
recursive call. -/
def goItems (rec : Json → Except String Json) : List Json → Except String (List Json)
  | [] => .ok []
  | v :: rest =>
      match itemStep rec v with
      | .error e => .error e
      | .ok v2 =>
          match goItems rec rest with
          | .error e => .error e
          | .ok r => .ok (v2 :: r)

/-- The per-value treatment inside the `for key, value in schema.items()` loop
(lines 55-59): recurse into dict values, map over list values, keep the rest. -/
def valueStep (rec : Json → Except String Json) : Json → Except String Json
  | .obj es => rec (.obj es)
  | .arr l =>
      match goItems rec l with
      | .error e => .error e
      | .ok l2 => .ok (.arr l2)
  | v => .ok v

/-- The recursive-processing loop over the (already modified) dict entries
(lines 55-59), parameterised by the recursive call. -/
def goEntries (rec : Json → Except String Json) :
    List (String × Json) → Except String (List (String × Json))
  | [] => .ok []
  | (k, v) :: rest =>
      match valueStep rec v with
      | .error e => .error e
      | .ok v2 =>
          match goEntries rec rest with
          | .error e => .error e
          | .ok r => .ok ((k, v2) :: r)

/-- The whole dict case of `simplify_schema_for_llm` (lines 43-59),
parameterised by the recursive call: pattern deletion, `anyOf` truncation,
then the recursive-processing loop over the modified entries. -/
def simpObj (rec : Json → Except String Json) (es : List (String × Json)) :
    Except String Json :=
  match patternStep es with
  | .error e => .error e
  | .ok es1 =>
      match anyOfStep es1 with
      | .error e => .error e
      | .ok es2 =>
          match goEntries rec es2 with
          | .error e => .error e
          | .ok es3 => .ok (.obj es3)

/-- `simplify_schema_for_llm` with an explicit fuel parameter bounding the
recursion depth.  One unit of fuel is spent per dict node entered; `jsize`
fuel always suffices (`simpFuel_mono` below), so the fuel is an artifact of
the embedding, not of the Python code. -/
def simpFuel : Nat → Json → Except String Json
  | 0, _ => .error "out of fuel"
  | f + 1, .obj es => simpObj (fun j => simpFuel f j) es
  | _ + 1, j => .ok j

/-- `simplify_schema_for_llm(schema)` (lines 39-61 of `extract_schema.py`):
non-dict input is returned unchanged; a dict first has its long `pattern`
deleted and its oversized `anyOf` truncated, then its values are processed
recursively (dict values recursively simplified; dict elements of list values
recursively simplified, other list elements kept). -/
def simplify_schema_for_llm (j : Json) : Except String Json :=
  simpFuel (jsize j) j

/-- The treatment of one element of a list value, with the tied recursive
call: `simplify_schema_for_llm(item) if isinstance(item, dict) else item`. -/
def simplifyItem : Json → Except String Json
  | .obj es => simplify_schema_for_llm (.obj es)
  | v => .ok v

/-- The treatment of one dict value, with the tied recursive call: dict values
are recursively simplified, list values have `simplifyItem` mapped over them,
all other values are kept unchanged. -/
def simplifyValue : Json → Except String Json :=
  valueStep (fun j => simplify_schema_for_llm j)

mutual

/-- Does some dict node anywhere in the tree satisfy `p`? -/
def anyNode (p : List (String × Json) → Bool) : Json → Bool
  | .arr l => anyNodeItems p l
  | .obj es => p es || anyNodeEntries p es
  | _ => false

def anyNodeItems (p : List (String × Json) → Bool) : List Json → Bool
  | [] => false
  | j :: r => anyNode p j || anyNodeItems p r

def anyNodeEntries (p : List (String × Json) → Bool) : List (String × Json) → Bool
  | [] => false
  | (_, v) :: r => anyNode p v || anyNodeEntries p r

end

/-- This dict node has a `pattern` key holding a string longer than 50
characters. -/
def patBad (es : List (String × Json)) : Bool :=
  match findVal "pattern" es with
  | some (.str s) => decide (50 < s.length)
  | _ => false

/-- This dict node has an `anyOf` key holding a list of more than 5
elements. -/
def anyBad (es : List (String × Json)) : Bool :=
  match findVal "anyOf" es with
  | some (.arr l) => decide (5 < l.length)
  | _ => false

/-- A 60-character pattern string. -/
def longPat : String := String.mk (List.replicate 60 'a')

mutual

/-- Every dict node in the tree has pairwise-distinct keys (true of every
value a Python dict structure can take). -/
def wfJson : Json → Bool
  | .arr l => wfItems l
  | .obj es => decide ((es.map Prod.fst).Nodup) && wfEntries es
  | _ => true

def wfItems : List Json → Bool
  | [] => true
  | j :: r => wfJson j && wfItems r

def wfEntries : List (String × Json) → Bool
  | [] => true
  | (_, v) :: r => wfJson v && wfEntries r

end

mutual

/-- Does every dict node in the tree satisfy `p`? -/
def allNodes (p : List (String × Json) → Bool) : Json → Bool
  | .arr l => allNodesItems p l
  | .obj es => p es && allNodesEntries p es
  | _ => true

def allNodesItems (p : List (String × Json) → Bool) : List Json → Bool
  | [] => true
  | j :: r => allNodes p j && allNodesItems p r

def allNodesEntries (p : List (String × Json) → Bool) : List (String × Json) → Bool
  | [] => true
  | (_, v) :: r => allNodes p v && allNodesEntries p r

end

/-- This dict node's `pattern` key, if present, holds a string (the
precondition named by the claim). -/
def patStr (es : List (String × Json)) : Bool :=
  match findVal "pattern" es with
  | some (.str _) => true
  | some _ => false
  | none => true

/-- This dict node's `pattern` key, if present, holds a string, and its
`anyOf` key, if present, holds a list: exactly the shapes on which `len` and
`[:3]` are applied without raising. -/
def safeNode (es : List (String × Json)) : Bool :=
  patStr es &&
    match findVal "anyOf" es with
    | some (.arr _) => true
    | some _ => false
    | none => true

/-- Python's `str.lower()` on the ASCII model names of the registry, mapped
over the characters of the string. -/
def strLower (s : String) : String := String.mk (s.data.map Char.toLower)

/-- One registered model as the batch loop sees it: its registry name, the
outcome of `model.model_json_schema()` (a schema, or a raised exception), and
whether the `json.dump` of its individual file succeeds. -/
structure ModelEntry where
  name : String
  exported : Except String Json
  writeOk : Bool

/-- The filename of a model's individual schema file (line 101):
`f'{name.lower()}.schema.json'`. -/
def schemaFileName (name : String) : String := strLower name ++ ".schema.json"

/-- The per-model `try` block of lines 95-109: export, simplify (either can
raise), then write the individual file.  On any failure line 111 prints a
diagnostic and the loop continues, so the model contributes nothing; the
model is fully processed exactly when this returns `some`. -/
def modelOutcome (m : ModelEntry) : Option Json :=
  match m.exported with
  | .error _ => none
  | .ok schema =>
      match simplify_schema_for_llm schema with
      | .error _ => none
      | .ok simplified => if m.writeOk then some simplified else none

/-- The loop of lines 93-112, in registry order: each fully processed model
contributes its individual file (first component) and its entry in
`extracted_schemas` (second component); a skipped model contributes
neither. -/
def processModels : List ModelEntry → List (String × Json) × List (String × Json)
  | [] => ([], [])
  | m :: rest =>
      match modelOutcome m with
      | none => processModels rest
      | some s =>
          ((schemaFileName m.name, s) :: (processModels rest).1,
           (m.name, s) :: (processModels rest).2)

/-- The parsed content of `schema_summary.json` (lines 122-132): timestamp,
count, names in insertion order, and name-to-filename mapping, all built from
`extracted_schemas`. -/
def summaryJson (ts : String) (extracted : List (String × Json)) : Json :=
  .obj [("extracted_at", .str ts),
        ("total_schemas", .num extracted.length),
        ("schema_names", .arr (extracted.map (fun p => .str p.1))),
        ("file_locations",
          .obj (extracted.map (fun p => (p.1, .str (schemaFileName p.1)))))]

/-- Everything one run of `extract_schemas()` produces: the files written
(filename to parsed JSON content), the parsed contents of `all_schemas.json`
and `schema_summary.json`, and the returned `extracted_schemas` mapping. -/
structure RunOutput where
  files : List (String × Json)
  combined : Json
  summary : Json
  result : List (String × Json)

/-- `extract_schemas()` (lines 63-134): run the per-model loop, then write
`all_schemas.json` from the extraction result set and `schema_summary.json`
from the same set.  File contents are modelled as parsed JSON; timestamps are
an external parameter. -/
def extract_schemas (ts : String) (models : List ModelEntry) : RunOutput :=
  { files := (processModels models).1 ++
      [("all_schemas.json", .obj (processModels models).2),
       ("schema_summary.json", summaryJson ts (processModels models).2)]
    combined := .obj (processModels models).2
    summary := summaryJson ts (processModels models).2
    result := (processModels models).2 }

/-- Exit status and files of one process run. -/
structure ScriptResult where
  exitCode : Nat
  files : List (String × Json)

/-- The whole script (lines 11-36 and 137-140): if the import of the model
library fails, the module-level `except` prints a diagnostic and calls
`exit(1)` before anything is written; otherwise `extract_schemas()` runs and
the process finishes normally with status 0, per-model failures having been
swallowed by the loop. -/
def runScript (importOk : Bool) (ts : String) (models : List ModelEntry) :
    ScriptResult :=
  if importOk then { exitCode := 0, files := (extract_schemas ts models).files }
  else { exitCode := 1, files := [] }

/-! ### Theorems. -/

theorem jsize_pos : ∀ j : Json, 1 ≤ jsize j := by
  intro j; cases j <;> simp [jsize]

theorem jsize_le_of_mem_entries {k : String} {v : Json} :
    ∀ {es : List (String × Json)}, (k, v) ∈ es → jsize v ≤ esize es := by
  intro es h
  induction es with
  | nil => cases h
  | cons e rest ih =>
      obtain ⟨k2, v2⟩ := e
      rcases List.mem_cons.mp h with h1 | h2
      · obtain ⟨rfl, rfl⟩ := Prod.mk.injEq .. ▸ h1
        simp only [esize]; omega
      · have := ih h2
        simp only [esize]; omega

theorem jsize_le_of_mem_items {v : Json} :
    ∀ {l : List Json}, v ∈ l → jsize v ≤ lsize l := by
  intro l h
  induction l with
  | nil => cases h
  | cons j rest ih =>
      rcases List.mem_cons.mp h with h1 | h2
      · subst h1; simp only [lsize]; omega
      · have := ih h2; simp only [lsize]; omega

theorem esize_removeKey_le (k : String) (es : List (String × Json)) :
    esize (removeKey k es) ≤ esize es := by
  induction es with
  | nil => simp [removeKey]
  | cons e rest ih =>
      obtain ⟨k2, v⟩ := e
      by_cases hk : k2 = k
      · simp only [removeKey, if_pos hk, esize]; omega
      · simp only [removeKey, if_neg hk, esize]; omega

theorem esize_setKey_le (k : String) (w : Json) :
    ∀ (es : List (String × Json)) (v : Json), findVal k es = some v →
      jsize w ≤ jsize v → esize (setKey k w es) ≤ esize es := by
  intro es
  induction es with
  | nil => intro v h; simp [findVal] at h
  | cons e rest ih =>
      intro v h hw
      obtain ⟨k2, v2⟩ := e
      by_cases hk : k2 = k
      · simp only [findVal, if_pos hk, Option.some.injEq] at h
        subst h
        simp only [setKey, if_pos hk, esize]; omega
      · simp only [findVal, if_neg hk] at h
        have := ih v h hw
        simp only [setKey, if_neg hk, esize]; omega

theorem lsize_take_le : ∀ (l : List Json) (n : Nat), lsize (l.take n) ≤ lsize l := by
  intro l
  induction l with
  | nil => intro n; simp [List.take_nil]
  | cons j rest ih =>
      intro n
      cases n with
      | zero => simp [lsize]
      | succ n =>
          simp only [List.take_succ_cons, lsize]
          have := ih n; omega

theorem pySlice3_size {v w : Json} (h : pySlice3 v = .ok w) : jsize w ≤ jsize v := by
  cases v with
  | str s =>
      simp only [pySlice3, Except.ok.injEq] at h
      subst h; simp [jsize]
  | arr l =>
      simp only [pySlice3, Except.ok.injEq] at h
      subst h
      simp only [jsize]
      have := lsize_take_le l 3; omega
  | null => exact nomatch h
  | bool b => exact nomatch h
  | num n => exact nomatch h
  | obj es => exact nomatch h

theorem patternStep_size {es es1 : List (String × Json)}
    (h : patternStep es = .ok es1) : esize es1 ≤ esize es := by
  unfold patternStep at h
  split at h
  · injection h with h; subst h; exact le_rfl
  · split at h
    · exact nomatch h
    · split at h
      · injection h with h; subst h; exact esize_removeKey_le _ _
      · injection h with h; subst h; exact le_rfl

theorem anyOfStep_size {es es2 : List (String × Json)}
    (h : anyOfStep es = .ok es2) : esize es2 ≤ esize es := by
  unfold anyOfStep at h
  split at h
  · injection h with h; subst h; exact le_rfl
  · rename_i v hv
    split at h
    · exact nomatch h
    · split at h
      · split at h
        · exact nomatch h
        · rename_i w hw
          injection h with h; subst h
          exact esize_setKey_le _ _ _ _ hv (pySlice3_size hw)
      · injection h with h; subst h; exact le_rfl

theorem itemStep_congr (rec rec2 : Json → Except String Json) (N : Nat)
    (hrec : ∀ v, jsize v ≤ N → rec v = rec2 v) (v : Json) (hv : jsize v ≤ N) :
    itemStep rec v = itemStep rec2 v := by
  cases v <;> simp only [itemStep]
  exact hrec _ hv

theorem goItems_congr (rec rec2 : Json → Except String Json) (N : Nat)
    (hrec : ∀ v, jsize v ≤ N → rec v = rec2 v) :
    ∀ l, lsize l ≤ N → goItems rec l = goItems rec2 l := by
  intro l
  induction l with
  | nil => intro h; rfl
  | cons v rest ih =>
      intro h
      simp only [lsize] at h
      have h1 : jsize v ≤ N := by omega
      have h2 : lsize rest ≤ N := by omega
      simp only [goItems, itemStep_congr rec rec2 N hrec v h1, ih h2]

theorem valueStep_congr (rec rec2 : Json → Except String Json) (N : Nat)
    (hrec : ∀ v, jsize v ≤ N → rec v = rec2 v) (v : Json) (hv : jsize v ≤ N) :
    valueStep rec v = valueStep rec2 v := by
  cases v with
  | arr l =>
      have hl : lsize l ≤ N := by simp only [jsize] at hv; omega
      simp only [valueStep, goItems_congr rec rec2 N hrec l hl]
  | obj es => exact hrec _ hv
  | null => rfl
  | bool b => rfl
  | num n => rfl
  | str s => rfl

theorem goEntries_congr (rec rec2 : Json → Except String Json) (N : Nat)
    (hrec : ∀ v, jsize v ≤ N → rec v = rec2 v) :
    ∀ es, esize es ≤ N → goEntries rec es = goEntries rec2 es := by
  intro es
  induction es with
  | nil => intro h; rfl
  | cons e rest ih =>
      intro h
      obtain ⟨k, v⟩ := e
      simp only [esize] at h
      have h1 : jsize v ≤ N := by omega
      have h2 : esize rest ≤ N := by omega
      simp only [goEntries, valueStep_congr rec rec2 N hrec v h1, ih h2]

theorem simpObj_congr (rec rec2 : Json → Except String Json)
    (es : List (String × Json))
    (hrec : ∀ v, jsize v ≤ esize es → rec v = rec2 v) :
    simpObj rec es = simpObj rec2 es := by
  unfold simpObj
  split
  · rfl
  · rename_i es1 heq
    split
    · rfl
    · rename_i es2 heq2
      rw [goEntries_congr rec rec2 (esize es) hrec es2
        (le_trans (anyOfStep_size heq2) (patternStep_size heq))]

theorem simpFuel_mono : ∀ (f f2 : Nat) (j : Json), jsize j ≤ f → jsize j ≤ f2 →
    simpFuel f j = simpFuel f2 j := by
  intro f
  induction f with
  | zero => intro f2 j h h2; exact absurd (jsize_pos j) (by omega)
  | succ f ih =>
      intro f2 j h h2
      cases f2 with
      | zero => exact absurd (jsize_pos j) (by omega)
      | succ f2 =>
          cases j with
          | obj es =>
              simp only [jsize] at h h2
              simp only [simpFuel]
              exact simpObj_congr _ _ es (fun v hv => ih f2 v (by omega) (by omega))
          | null => rfl
          | bool b => rfl
          | num n => rfl
          | str s => rfl
          | arr l => rfl

/-- Unfolding `simplify_schema_for_llm` on a dict, with the recursive call
appearing as the full function itself: the fuel is invisible from here on. -/
theorem simplify_obj (es : List (String × Json)) :
    simplify_schema_for_llm (.obj es) =
      simpObj (fun j => simplify_schema_for_llm j) es := by
  show simpObj (fun j => simpFuel (esize es) j) es = _
  exact simpObj_congr _ _ es
    (fun v hv => simpFuel_mono (esize es) (jsize v) v hv le_rfl)

theorem simplify_non_obj (j : Json) (h : ∀ es, j ≠ .obj es) :
    simplify_schema_for_llm j = .ok j := by
  cases j with
  | obj es => exact absurd rfl (h es)
  | null => rfl
  | bool b => rfl
  | num n => rfl
  | str s => rfl
  | arr l => rfl

theorem goItems_ok_iff (rec : Json → Except String Json) :
    ∀ (l l2 : List Json), goItems rec l = .ok l2 ↔
      List.Forall₂ (fun v v2 => itemStep rec v = .ok v2) l l2 := by
  intro l
  induction l with
  | nil =>
      intro l2
      constructor
      · intro h; injection h with h; subst h; exact List.Forall₂.nil
      · intro h; cases h; rfl
  | cons v rest ih =>
      intro l2
      constructor
      · intro h
        simp only [goItems] at h
        split at h
        · exact nomatch h
        · rename_i v2 hv
          split at h
          · exact nomatch h
          · rename_i r hr
            injection h with h; subst h
            exact List.Forall₂.cons hv ((ih r).mp hr)
      · intro h
        cases h with
        | cons hv hrest =>
            rename_i v2 r
            simp only [goItems, hv, (ih r).mpr hrest]

theorem goEntries_ok_iff (rec : Json → Except String Json) :
    ∀ (es es2 : List (String × Json)), goEntries rec es = .ok es2 ↔
      List.Forall₂ (fun p q => p.1 = q.1 ∧ valueStep rec p.2 = .ok q.2) es es2 := by
  intro es
  induction es with
  | nil =>
      intro es2
      constructor
      · intro h; injection h with h; subst h; exact List.Forall₂.nil
      · intro h; cases h; rfl
  | cons e rest ih =>
      intro es2
      obtain ⟨k, v⟩ := e
      constructor
      · intro h
        simp only [goEntries] at h
        split at h
        · exact nomatch h
        · rename_i v2 hv
          split at h
          · exact nomatch h
          · rename_i r hr
            injection h with h; subst h
            exact List.Forall₂.cons ⟨rfl, hv⟩ ((ih r).mp hr)
      · intro h
        cases h with
        | cons hq hrest =>
            rename_i q r
            obtain ⟨k2, v2⟩ := q
            obtain ⟨hk, hv⟩ := hq
            simp only at hk hv
            subst hk
            simp only [goEntries, hv, (ih r).mpr hrest]

/-- Master characterisation of the transform on a dict: the two header steps
succeed, and the recursive loop relates the modified entries pointwise to the
output entries, with the recursive call now the full function itself. -/
theorem simplify_obj_ok_iff (es : List (String × Json)) (r : Json) :
    simplify_schema_for_llm (.obj es) = .ok r ↔
      ∃ es1 es2 es3, patternStep es = .ok es1 ∧ anyOfStep es1 = .ok es2 ∧
        List.Forall₂ (fun p q => p.1 = q.1 ∧ simplifyValue p.2 = .ok q.2) es2 es3 ∧
        r = .obj es3 := by
  rw [simplify_obj]
  unfold simpObj
  constructor
  · intro h
    split at h
    · exact nomatch h
    · rename_i es1 h1
      split at h
      · exact nomatch h
      · rename_i es2 h2
        split at h
        · exact nomatch h
        · rename_i es3 h3
          injection h with h; subst h
          exact ⟨es1, es2, es3, h1, h2, (goEntries_ok_iff _ es2 es3).mp h3, rfl⟩
  · rintro ⟨es1, es2, es3, h1, h2, h3, rfl⟩
    split
    · rename_i e he; rw [he] at h1; exact nomatch h1
    · rename_i es1b he
      rw [he] at h1; injection h1 with h1; subst h1
      split
      · rename_i e he2; rw [he2] at h2; exact nomatch h2
      · rename_i es2b he2
        rw [he2] at h2; injection h2 with h2; subst h2
        split
        · rename_i e he3
          rw [(goEntries_ok_iff _ es2b es3).mpr h3] at he3
          exact nomatch he3
        · rename_i es3b he3
          rw [(goEntries_ok_iff _ es2b es3).mpr h3] at he3
          injection he3 with he3; subst he3
          rfl

theorem itemStep_simplify (v : Json) :
    itemStep (fun j => simplify_schema_for_llm j) v = simplifyItem v := by
  cases v <;> rfl

theorem findVal_eq_none_iff (k : String) :
    ∀ es : List (String × Json), findVal k es = none ↔ k ∉ es.map Prod.fst := by
  intro es
  induction es with
  | nil => simp [findVal]
  | cons e rest ih =>
      obtain ⟨k2, v⟩ := e
      by_cases hk : k2 = k
      · subst hk; simp [findVal, ih]
      · simp [findVal, hk, ih, Ne.symm hk]

theorem findVal_removeKey_ne (k k2 : String) (h : k ≠ k2) :
    ∀ es, findVal k (removeKey k2 es) = findVal k es := by
  intro es
  induction es with
  | nil => rfl
  | cons e rest ih =>
      obtain ⟨k3, v⟩ := e
      by_cases h3 : k3 = k2
      · have hne : k3 ≠ k := fun hh => h (hh ▸ h3)
        simp only [removeKey, if_pos h3, findVal, if_neg hne]
      · by_cases h4 : k3 = k
        · simp [removeKey, h3, findVal, h4, h]
        · simp [removeKey, h3, findVal, h4, ih]

theorem findVal_removeKey_self (k : String) :
    ∀ es : List (String × Json), (es.map Prod.fst).Nodup →
      findVal k (removeKey k es) = none := by
  intro es
  induction es with
  | nil => intro h; rfl
  | cons e rest ih =>
      intro hnd
      obtain ⟨k2, v⟩ := e
      simp only [List.map_cons, List.nodup_cons] at hnd
      obtain ⟨hmem, hnd2⟩ := hnd
      by_cases hk : k2 = k
      · subst hk
        simp only [removeKey, if_pos rfl]
        exact (findVal_eq_none_iff k2 rest).mpr hmem
      · simp only [removeKey, if_neg hk, findVal, if_neg hk]
        exact ih hnd2

theorem findVal_setKey_ne (k k2 : String) (w : Json) (h : k ≠ k2) :
    ∀ es, findVal k (setKey k2 w es) = findVal k es := by
  intro es
  induction es with
  | nil => rfl
  | cons e rest ih =>
      obtain ⟨k3, v⟩ := e
      by_cases h3 : k3 = k2
      · have hne : k3 ≠ k := fun hh => h (hh ▸ h3)
        simp only [setKey, if_pos h3, findVal, if_neg hne]
      · by_cases h4 : k3 = k
        · simp [setKey, h3, findVal, h4, h]
        · simp [setKey, h3, findVal, h4, ih]

theorem findVal_setKey_self (k : String) (w : Json) :
    ∀ es v, findVal k es = some v → findVal k (setKey k w es) = some w := by
  intro es
  induction es with
  | nil => intro v h; exact nomatch h
  | cons e rest ih =>
      intro v h
      obtain ⟨k2, v2⟩ := e
      by_cases hk : k2 = k
      · simp [setKey, hk, findVal]
      · simp only [findVal, if_neg hk] at h
        simp only [setKey, if_neg hk, findVal, if_neg hk]
        exact ih v h

theorem map_fst_setKey (k : String) (w : Json) :
    ∀ es, (setKey k w es).map Prod.fst = es.map Prod.fst := by
  intro es
  induction es with
  | nil => rfl
  | cons e rest ih =>
      obtain ⟨k2, v⟩ := e
      by_cases hk : k2 = k
      · simp [setKey, hk]
      · simp [setKey, hk, ih]

theorem mem_map_fst_removeKey {x : String} (k : String) :
    ∀ es : List (String × Json),
      x ∈ (removeKey k es).map Prod.fst → x ∈ es.map Prod.fst := by
  intro es
  induction es with
  | nil => intro h; exact absurd h (by simp [removeKey])
  | cons e rest ih =>
      obtain ⟨k2, v⟩ := e
      by_cases hk : k2 = k
      · intro h
        simp only [removeKey, if_pos hk] at h
        exact List.mem_cons_of_mem _ h
      · intro h
        simp only [removeKey, if_neg hk, List.map_cons, List.mem_cons] at h ⊢
        rcases h with h | h
        · exact Or.inl h
        · exact Or.inr (ih h)

theorem nodup_map_fst_removeKey (k : String) :
    ∀ es : List (String × Json), (es.map Prod.fst).Nodup →
      ((removeKey k es).map Prod.fst).Nodup := by
  intro es
  induction es with
  | nil => intro h; simp [removeKey]
  | cons e rest ih =>
      intro hnd
      obtain ⟨k2, v⟩ := e
      simp only [List.map_cons, List.nodup_cons] at hnd
      obtain ⟨hmem, hnd2⟩ := hnd
      by_cases hk : k2 = k
      · simp only [removeKey, if_pos hk]
        exact hnd2
      · simp only [removeKey, if_neg hk, List.map_cons, List.nodup_cons]
        exact ⟨fun h => hmem (mem_map_fst_removeKey k rest h), ih hnd2⟩

theorem forall2_map_fst (R : Json → Json → Prop) :
    ∀ {es es2 : List (String × Json)},
      List.Forall₂ (fun p q => p.1 = q.1 ∧ R p.2 q.2) es es2 →
      es2.map Prod.fst = es.map Prod.fst := by
  intro es es2 h
  induction h with
  | nil => rfl
  | cons hpq hrest ih =>
      rename_i p q l m
      simp only [List.map_cons, ih, hpq.1]

theorem findVal_forall2 (R : Json → Json → Prop) {es es2 : List (String × Json)}
    (h : List.Forall₂ (fun p q => p.1 = q.1 ∧ R p.2 q.2) es es2) (k : String) :
    (findVal k es = none → findVal k es2 = none) ∧
    (∀ v, findVal k es = some v → ∃ w, findVal k es2 = some w ∧ R v w) := by
  induction h with
  | nil => exact ⟨fun _ => rfl, fun v h => nomatch h⟩
  | cons hpq hrest ih =>
      rename_i p q l m
      obtain ⟨k1, v1⟩ := p
      obtain ⟨k2, v2⟩ := q
      obtain ⟨hk, hR⟩ := hpq
      simp only at hk hR
      subst hk
      by_cases hk1 : k1 = k
      · constructor
        · intro hcon; simp [findVal, hk1] at hcon
        · intro v hv
          simp only [findVal, if_pos hk1, Option.some.injEq] at hv
          subst hv
          exact ⟨v2, by simp [findVal, hk1], hR⟩
      · constructor
        · intro hn
          simp only [findVal, if_neg hk1] at hn ⊢
          exact ih.1 hn
        · intro v hv
          simp only [findVal, if_neg hk1] at hv ⊢
          exact ih.2 v hv

theorem patternStep_ok_cases {es es1 : List (String × Json)}
    (h : patternStep es = .ok es1) :
    es1 = es ∨ ∃ v n, findVal "pattern" es = some v ∧ pyLen v = .ok n ∧ 50 < n ∧
      es1 = removeKey "pattern" es := by
  unfold patternStep at h
  split at h
  · injection h with h; exact Or.inl h.symm
  · rename_i v hv
    split at h
    · exact nomatch h
    · rename_i n hn
      split at h
      · rename_i h50
        injection h with h
        exact Or.inr ⟨v, n, hv, hn, h50, h.symm⟩
      · injection h with h; exact Or.inl h.symm

theorem anyOfStep_ok_cases {es es2 : List (String × Json)}
    (h : anyOfStep es = .ok es2) :
    es2 = es ∨ ∃ v n w, findVal "anyOf" es = some v ∧ pyLen v = .ok n ∧ 5 < n ∧
      pySlice3 v = .ok w ∧ es2 = setKey "anyOf" w es := by
  unfold anyOfStep at h
  split at h
  · injection h with h; exact Or.inl h.symm
  · rename_i v hv
    split at h
    · exact nomatch h
    · rename_i n hn
      split at h
      · rename_i h5
        split at h
        · exact nomatch h
        · rename_i w hw
          injection h with h
          exact Or.inr ⟨v, n, w, hv, hn, h5, hw, h.symm⟩
      · injection h with h; exact Or.inl h.symm

theorem patternStep_none {es : List (String × Json)}
    (h : findVal "pattern" es = none) : patternStep es = .ok es := by
  simp [patternStep, h]

theorem patternStep_keep {es : List (String × Json)} {v : Json} {n : Nat}
    (hv : findVal "pattern" es = some v) (hn : pyLen v = .ok n) (h : n ≤ 50) :
    patternStep es = .ok es := by
  simp [patternStep, hv, hn, Nat.not_lt.mpr h]

theorem patternStep_del {es : List (String × Json)} {v : Json} {n : Nat}
    (hv : findVal "pattern" es = some v) (hn : pyLen v = .ok n) (h : 50 < n) :
    patternStep es = .ok (removeKey "pattern" es) := by
  simp [patternStep, hv, hn, h]

theorem anyOfStep_none {es : List (String × Json)}
    (h : findVal "anyOf" es = none) : anyOfStep es = .ok es := by
  simp [anyOfStep, h]

theorem anyOfStep_keep {es : List (String × Json)} {v : Json} {n : Nat}
    (hv : findVal "anyOf" es = some v) (hn : pyLen v = .ok n) (h : n ≤ 5) :
    anyOfStep es = .ok es := by
  simp [anyOfStep, hv, hn, Nat.not_lt.mpr h]

theorem anyOfStep_trunc {es : List (String × Json)} {v w : Json} {n : Nat}
    (hv : findVal "anyOf" es = some v) (hn : pyLen v = .ok n) (h : 5 < n)
    (hw : pySlice3 v = .ok w) :
    anyOfStep es = .ok (setKey "anyOf" w es) := by
  simp [anyOfStep, hv, hn, h, hw]

theorem findVal_patternStep {k : String} (hk : k ≠ "pattern")
    {es es1 : List (String × Json)} (h : patternStep es = .ok es1) :
    findVal k es1 = findVal k es := by
  rcases patternStep_ok_cases h with rfl | ⟨v, n, hv, hn, h50, rfl⟩
  · rfl
  · exact findVal_removeKey_ne k "pattern" hk es

theorem findVal_anyOfStep {k : String} (hk : k ≠ "anyOf")
    {es es2 : List (String × Json)} (h : anyOfStep es = .ok es2) :
    findVal k es2 = findVal k es := by
  rcases anyOfStep_ok_cases h with rfl | ⟨v, n, w, hv, hn, h5, hw, rfl⟩
  · rfl
  · exact findVal_setKey_ne k "anyOf" w hk es

theorem simplifyValue_str (s : String) : simplifyValue (.str s) = .ok (.str s) := rfl

theorem simplifyValue_arr_ok {l : List Json} {w : Json}
    (h : simplifyValue (.arr l) = .ok w) :
    ∃ l2, w = .arr l2 ∧ List.Forall₂ (fun v v2 => simplifyItem v = .ok v2) l l2 := by
  simp only [simplifyValue, valueStep] at h
  split at h
  · exact nomatch h
  · rename_i l2 hl2
    injection h with h
    refine ⟨l2, h.symm, ?_⟩
    have := (goItems_ok_iff _ l l2).mp hl2
    exact this.imp (fun {v v2} hh => (itemStep_simplify v) ▸ hh)

/-- Claim C1, counterexample.  The claim quantifies over *every* mapping node
of the input, but the recursion never enters a dict that sits inside a list
which is itself an element of a list (line 59 recurses only into dict
elements): on this input the transform is the identity, and the output still
contains a mapping node whose `pattern` key holds a 60-character string. -/
theorem C1_counterexample :
    simplify_schema_for_llm (Json.obj [("deep",
        Json.arr [Json.arr [Json.obj [("pattern", Json.str longPat)]]])]) =
      .ok (Json.obj [("deep",
        Json.arr [Json.arr [Json.obj [("pattern", Json.str longPat)]]])]) ∧
    anyNode patBad (Json.obj [("deep",
        Json.arr [Json.arr [Json.obj [("pattern", Json.str longPat)]]])]) = true := by
  exact ⟨rfl, by decide⟩

/-- Claim C1 (amended).  For the dict nodes the recursion actually visits —
each visited node is the root of one recursive call, so the root-level
statement covers all of them — a `pattern` key holding a string of more than
50 characters is removed (the node's keys being distinct, as Python dict keys
are), and a `pattern` key holding a string of at most 50 characters is
retained unchanged.  Mapping nodes buried inside a list element of a list are
not visited and are passed through unchanged (`C1_counterexample`). -/
theorem C1_pattern_rule (es es2 : List (String × Json)) (s : String)
    (hnd : (es.map Prod.fst).Nodup)
    (h : simplify_schema_for_llm (.obj es) = .ok (.obj es2))
    (hs : findVal "pattern" es = some (.str s)) :
    (50 < s.length → findVal "pattern" es2 = none) ∧
    (s.length ≤ 50 → findVal "pattern" es2 = some (.str s)) := by
  obtain ⟨es1, esm, es3, h1, h2, h3, heq⟩ := (simplify_obj_ok_iff es _).mp h
  injection heq with heq
  subst heq
  constructor
  · intro h50
    rw [patternStep_del hs rfl h50] at h1
    injection h1 with h1
    subst h1
    have hnone : findVal "pattern" esm = none := by
      rw [findVal_anyOfStep (by decide) h2]
      exact findVal_removeKey_self _ es hnd
    exact (findVal_forall2 (fun v w => simplifyValue v = .ok w) h3 "pattern").1 hnone
  · intro h50
    rw [patternStep_keep hs rfl h50] at h1
    injection h1 with h1
    subst h1
    have hsome : findVal "pattern" esm = some (.str s) := by
      rw [findVal_anyOfStep (by decide) h2]
      exact hs
    obtain ⟨w, hw, hR⟩ :=
      (findVal_forall2 (fun v w => simplifyValue v = .ok w) h3 "pattern").2 _ hsome
    rw [simplifyValue_str] at hR
    injection hR with hR
    subst hR
    exact hw

/-- Claim C1, witness: `C1_pattern_rule` applied to a concrete dict whose
60-character `pattern` string is deleted. -/
theorem C1_witness :
    (([("pattern", Json.str longPat), ("x", Json.num 1)].map Prod.fst).Nodup ∧
      simplify_schema_for_llm (Json.obj [("pattern", Json.str longPat), ("x", Json.num 1)]) =
        .ok (Json.obj [("x", Json.num 1)]) ∧
      findVal "pattern" [("pattern", Json.str longPat), ("x", Json.num 1)] =
        some (Json.str longPat)) ∧
    findVal "pattern" [("x", Json.num 1)] = none := by
  refine ⟨⟨by decide, rfl, rfl⟩, ?_⟩
  exact (C1_pattern_rule [("pattern", Json.str longPat), ("x", Json.num 1)]
    [("x", Json.num 1)] longPat (by decide) rfl rfl).1 (by decide)

/-- Claim C2, counterexample.  On a dict buried inside a list element of a
list the recursion never arrives (line 59 recurses only into dict elements of
a list), so its 7-element `anyOf` list survives untruncated: the output is the
input itself and still contains a node whose `anyOf` list has more than 5
elements, where the claim demands exactly 3. -/
theorem C2_counterexample :
    simplify_schema_for_llm (Json.obj [("deep",
        Json.arr [Json.arr [Json.obj [("anyOf", Json.arr [Json.num 1, Json.num 2,
          Json.num 3, Json.num 4, Json.num 5, Json.num 6, Json.num 7])]]])]) =
      .ok (Json.obj [("deep",
        Json.arr [Json.arr [Json.obj [("anyOf", Json.arr [Json.num 1, Json.num 2,
          Json.num 3, Json.num 4, Json.num 5, Json.num 6, Json.num 7])]]])]) ∧
    anyNode anyBad (Json.obj [("deep",
        Json.arr [Json.arr [Json.obj [("anyOf", Json.arr [Json.num 1, Json.num 2,
          Json.num 3, Json.num 4, Json.num 5, Json.num 6, Json.num 7])]]])]) = true := by
  exact ⟨rfl, by decide⟩

/-- Claim C2 (amended).  For the dict nodes the recursion actually visits
(each visited node is the root of one recursive call): an `anyOf` list of more
than 5 elements is truncated to its first three entries, each of which is then
itself recursively simplified if it is a dict (and kept as is otherwise); an
`anyOf` list of at most 5 elements keeps its length, its elements processed
the same way.  The original claim fails for nodes buried inside a list
element of a list (`C2_counterexample`), and the kept entries are the
simplified first three, not necessarily the original ones verbatim. -/
theorem C2_anyof_rule (es es2 : List (String × Json)) (l : List Json)
    (h : simplify_schema_for_llm (.obj es) = .ok (.obj es2))
    (hl : findVal "anyOf" es = some (.arr l)) :
    (5 < l.length → ∃ l2, findVal "anyOf" es2 = some (.arr l2) ∧ l2.length = 3 ∧
        List.Forall₂ (fun v v2 => simplifyItem v = .ok v2) (l.take 3) l2) ∧
    (l.length ≤ 5 → ∃ l2, findVal "anyOf" es2 = some (.arr l2) ∧ l2.length = l.length ∧
        List.Forall₂ (fun v v2 => simplifyItem v = .ok v2) l l2) := by
  obtain ⟨es1, esm, es3, h1, h2, h3, heq⟩ := (simplify_obj_ok_iff es _).mp h
  injection heq with heq
  subst heq
  have hl1 : findVal "anyOf" es1 = some (.arr l) := by
    rw [findVal_patternStep (by decide) h1]; exact hl
  constructor
  · intro h5
    have htr : anyOfStep es1 = .ok (setKey "anyOf" (.arr (l.take 3)) es1) :=
      anyOfStep_trunc hl1 rfl h5 rfl
    rw [htr] at h2
    injection h2 with h2
    subst h2
    obtain ⟨w, hw, hR⟩ :=
      (findVal_forall2 (fun v w => simplifyValue v = .ok w) h3 "anyOf").2 _
        (findVal_setKey_self "anyOf" (Json.arr (l.take 3)) es1 (Json.arr l) hl1)
    obtain ⟨l2, rfl, hF⟩ := simplifyValue_arr_ok hR
    refine ⟨l2, hw, ?_, hF⟩
    have hlen := List.Forall₂.length_eq hF
    rw [List.length_take] at hlen
    omega
  · intro h5
    have hkeep : anyOfStep es1 = .ok es1 := anyOfStep_keep hl1 rfl h5
    rw [hkeep] at h2
    injection h2 with h2
    subst h2
    obtain ⟨w, hw, hR⟩ :=
      (findVal_forall2 (fun v w => simplifyValue v = .ok w) h3 "anyOf").2 _ hl1
    obtain ⟨l2, rfl, hF⟩ := simplifyValue_arr_ok hR
    exact ⟨l2, hw, (List.Forall₂.length_eq hF).symm, hF⟩

/-- Claim C2, witness: `C2_anyof_rule` applied to a concrete dict whose
7-element `anyOf` list is truncated to its first three entries. -/
theorem C2_witness :
    (simplify_schema_for_llm (Json.obj [("anyOf", Json.arr [Json.num 1, Json.num 2,
        Json.num 3, Json.num 4, Json.num 5, Json.num 6, Json.num 7])]) =
      .ok (Json.obj [("anyOf", Json.arr [Json.num 1, Json.num 2, Json.num 3])]) ∧
      findVal "anyOf" [("anyOf", Json.arr [Json.num 1, Json.num 2, Json.num 3,
        Json.num 4, Json.num 5, Json.num 6, Json.num 7])] =
        some (Json.arr [Json.num 1, Json.num 2, Json.num 3, Json.num 4, Json.num 5,
          Json.num 6, Json.num 7]) ∧
      5 < ([Json.num 1, Json.num 2, Json.num 3, Json.num 4, Json.num 5, Json.num 6,
        Json.num 7] : List Json).length) ∧
    (∃ l2, findVal "anyOf" [("anyOf", Json.arr [Json.num 1, Json.num 2, Json.num 3])] =
      some (Json.arr l2) ∧ l2.length = 3 ∧
      List.Forall₂ (fun v v2 => simplifyItem v = .ok v2)
        (([Json.num 1, Json.num 2, Json.num 3, Json.num 4, Json.num 5, Json.num 6,
          Json.num 7] : List Json).take 3) l2) := by
  refine ⟨⟨rfl, rfl, by decide⟩, ?_⟩
  exact (C2_anyof_rule [("anyOf", Json.arr [Json.num 1, Json.num 2, Json.num 3,
    Json.num 4, Json.num 5, Json.num 6, Json.num 7])]
    [("anyOf", Json.arr [Json.num 1, Json.num 2, Json.num 3])]
    [Json.num 1, Json.num 2, Json.num 3, Json.num 4, Json.num 5, Json.num 6, Json.num 7]
    rfl rfl).1 (by decide)

/-- Claim C9.  A `oneOf` list is never truncated: at every dict node the
recursion visits (each visited node is the root of one recursive call), a
`oneOf` key holding a list is mapped to a list of the same length whose dict
elements are recursively simplified and whose other elements are unchanged —
only the `anyOf` key is subject to truncation.  Unvisited nodes (inside a
list element of a list) are passed through whole, so no `oneOf` list anywhere
is ever truncated. -/
theorem C9_oneof_rule (es es2 : List (String × Json)) (l : List Json)
    (h : simplify_schema_for_llm (.obj es) = .ok (.obj es2))
    (hl : findVal "oneOf" es = some (.arr l)) :
    ∃ l2, findVal "oneOf" es2 = some (.arr l2) ∧ l2.length = l.length ∧
      List.Forall₂ (fun v v2 => simplifyItem v = .ok v2) l l2 := by
  obtain ⟨es1, esm, es3, h1, h2, h3, heq⟩ := (simplify_obj_ok_iff es _).mp h
  injection heq with heq
  subst heq
  have hm : findVal "oneOf" esm = some (.arr l) := by
    rw [findVal_anyOfStep (by decide) h2, findVal_patternStep (by decide) h1]
    exact hl
  obtain ⟨w, hw, hR⟩ :=
    (findVal_forall2 (fun v w => simplifyValue v = .ok w) h3 "oneOf").2 _ hm
  obtain ⟨l2, rfl, hF⟩ := simplifyValue_arr_ok hR
  exact ⟨l2, hw, (List.Forall₂.length_eq hF).symm, hF⟩

/-- Claim C9, witness: `C9_oneof_rule` applied to a concrete dict whose
7-element `oneOf` list is preserved whole. -/
theorem C9_witness :
    (simplify_schema_for_llm (Json.obj [("oneOf", Json.arr [Json.num 1, Json.num 2,
        Json.num 3, Json.num 4, Json.num 5, Json.num 6, Json.num 7])]) =
      .ok (Json.obj [("oneOf", Json.arr [Json.num 1, Json.num 2, Json.num 3,
        Json.num 4, Json.num 5, Json.num 6, Json.num 7])]) ∧
      findVal "oneOf" [("oneOf", Json.arr [Json.num 1, Json.num 2, Json.num 3,
        Json.num 4, Json.num 5, Json.num 6, Json.num 7])] =
        some (Json.arr [Json.num 1, Json.num 2, Json.num 3, Json.num 4, Json.num 5,
          Json.num 6, Json.num 7])) ∧
    (∃ l2, findVal "oneOf" [("oneOf", Json.arr [Json.num 1, Json.num 2, Json.num 3,
        Json.num 4, Json.num 5, Json.num 6, Json.num 7])] = some (Json.arr l2) ∧
      l2.length = ([Json.num 1, Json.num 2, Json.num 3, Json.num 4, Json.num 5,
        Json.num 6, Json.num 7] : List Json).length ∧
      List.Forall₂ (fun v v2 => simplifyItem v = .ok v2)
        [Json.num 1, Json.num 2, Json.num 3, Json.num 4, Json.num 5, Json.num 6,
          Json.num 7] l2) := by
  refine ⟨⟨rfl, rfl⟩, ?_⟩
  exact C9_oneof_rule [("oneOf", Json.arr [Json.num 1, Json.num 2, Json.num 3,
    Json.num 4, Json.num 5, Json.num 6, Json.num 7])]
    [("oneOf", Json.arr [Json.num 1, Json.num 2, Json.num 3, Json.num 4, Json.num 5,
      Json.num 6, Json.num 7])]
    [Json.num 1, Json.num 2, Json.num 3, Json.num 4, Json.num 5, Json.num 6, Json.num 7]
    rfl rfl

/-- Claim C4, counterexample.  The first three `anyOf` entries are kept, but
each kept dict entry is then itself recursively simplified (lines 55-59 run
after the truncation), so they are not necessarily unchanged: here `s1` is a
dict with a 60-character `pattern`, and the output's first entry is `{}`
rather than `s1`. -/
theorem C4_counterexample :
    simplify_schema_for_llm (Json.obj [("pattern", Json.str longPat),
        ("anyOf", Json.arr [Json.obj [("pattern", Json.str longPat)], Json.num 2,
          Json.num 3, Json.num 4, Json.num 5, Json.num 6, Json.num 7])]) =
      .ok (Json.obj [("anyOf", Json.arr [Json.obj [], Json.num 2, Json.num 3])]) ∧
    Json.obj [("anyOf", Json.arr [Json.obj [], Json.num 2, Json.num 3])] ≠
      Json.obj [("anyOf", Json.arr [Json.obj [("pattern", Json.str longPat)],
        Json.num 2, Json.num 3])] := by
  constructor
  · rfl
  · intro h
    have h1 : anyNode patBad
        (Json.obj [("anyOf", Json.arr [Json.obj [], Json.num 2, Json.num 3])]) = false := by
      decide
    rw [h] at h1
    have h2 : anyNode patBad
        (Json.obj [("anyOf", Json.arr [Json.obj [("pattern", Json.str longPat)],
          Json.num 2, Json.num 3])]) = true := by
      decide
    rw [h1] at h2
    exact Bool.noConfusion h2

/-- Claim C4 (amended).  For sub-schemas `s1..s7` and a 60-character string
`p`, simplifying `{"pattern": p, "anyOf": [s1..s7]}` removes the `pattern` key
and truncates the union to its first three entries, each of which is then
itself recursively simplified (`simplifyItem`); for non-dict entries this
leaves them unchanged, so the original claim holds verbatim only when the
first three entries are not dicts or are already fully simplified. -/
theorem C4_scenario (p : String) (hp : p.length = 60)
    (s1 s2 s3 s4 s5 s6 s7 t1 t2 t3 : Json)
    (h1 : simplifyItem s1 = .ok t1) (h2 : simplifyItem s2 = .ok t2)
    (h3 : simplifyItem s3 = .ok t3) :
    simplify_schema_for_llm (.obj [("pattern", .str p),
        ("anyOf", .arr [s1, s2, s3, s4, s5, s6, s7])]) =
      .ok (.obj [("anyOf", .arr [t1, t2, t3])]) := by
  apply (simplify_obj_ok_iff _ _).mpr
  refine ⟨[("anyOf", .arr [s1, s2, s3, s4, s5, s6, s7])],
          [("anyOf", .arr [s1, s2, s3])],
          [("anyOf", .arr [t1, t2, t3])], ?_, ?_, ?_, rfl⟩
  · have hv : findVal "pattern" [("pattern", Json.str p),
        ("anyOf", Json.arr [s1, s2, s3, s4, s5, s6, s7])] = some (.str p) := by
      simp [findVal]
    rw [patternStep_del hv rfl (by omega)]
    simp [removeKey]
  · have hv : findVal "anyOf" [("anyOf", Json.arr [s1, s2, s3, s4, s5, s6, s7])] =
        some (.arr [s1, s2, s3, s4, s5, s6, s7]) := by
      simp [findVal]
    rw [anyOfStep_trunc hv rfl (by simp) rfl]
    simp [setKey]
  · have hg : goItems (fun j => simplify_schema_for_llm j) [s1, s2, s3] =
        .ok [t1, t2, t3] :=
      (goItems_ok_iff _ _ _).mpr
        (List.Forall₂.cons ((itemStep_simplify s1).trans h1)
          (List.Forall₂.cons ((itemStep_simplify s2).trans h2)
            (List.Forall₂.cons ((itemStep_simplify s3).trans h3) List.Forall₂.nil)))
    exact List.Forall₂.cons ⟨rfl, by simp only [simplifyValue, valueStep, hg]⟩
      List.Forall₂.nil

/-- Claim C4, witness: `C4_scenario` at concrete inputs (numeric entries,
which `simplifyItem` keeps unchanged). -/
theorem C4_witness :
    (longPat.length = 60 ∧ simplifyItem (Json.num 1) = .ok (Json.num 1) ∧
      simplifyItem (Json.num 2) = .ok (Json.num 2) ∧
      simplifyItem (Json.num 3) = .ok (Json.num 3)) ∧
    simplify_schema_for_llm (.obj [("pattern", .str longPat),
        ("anyOf", .arr [Json.num 1, Json.num 2, Json.num 3, Json.num 4, Json.num 5,
          Json.num 6, Json.num 7])]) =
      .ok (.obj [("anyOf", .arr [Json.num 1, Json.num 2, Json.num 3])]) := by
  refine ⟨⟨by decide, rfl, rfl, rfl⟩, ?_⟩
  exact C4_scenario longPat (by decide) (Json.num 1) (Json.num 2) (Json.num 3)
    (Json.num 4) (Json.num 5) (Json.num 6) (Json.num 7)
    (Json.num 1) (Json.num 2) (Json.num 3) rfl rfl rfl

theorem wfItems_mem : ∀ {l : List Json} {v : Json},
    wfItems l = true → v ∈ l → wfJson v = true := by
  intro l
  induction l with
  | nil => intro v h hv; cases hv
  | cons j r ih =>
      intro v h hv
      simp only [wfItems, Bool.and_eq_true] at h
      rcases List.mem_cons.mp hv with rfl | hv2
      · exact h.1
      · exact ih h.2 hv2

theorem wfEntries_mem : ∀ {es : List (String × Json)} {k : String} {v : Json},
    wfEntries es = true → (k, v) ∈ es → wfJson v = true := by
  intro es
  induction es with
  | nil => intro k v h hv; cases hv
  | cons e r ih =>
      intro k v h hv
      obtain ⟨k2, v2⟩ := e
      simp only [wfEntries, Bool.and_eq_true] at h
      rcases List.mem_cons.mp hv with h1 | hv2
      · obtain ⟨rfl, rfl⟩ := Prod.mk.injEq .. ▸ h1
        exact h.1
      · exact ih h.2 hv2

theorem wfItems_take (n : Nat) : ∀ {l : List Json},
    wfItems l = true → wfItems (l.take n) = true := by
  induction n with
  | zero => intro l h; rfl
  | succ n ih =>
      intro l h
      cases l with
      | nil => rfl
      | cons j r =>
          simp only [wfItems, Bool.and_eq_true] at h
          simp only [List.take_succ_cons, wfItems, Bool.and_eq_true]
          exact ⟨h.1, ih h.2⟩

theorem wfEntries_removeKey (k : String) : ∀ {es : List (String × Json)},
    wfEntries es = true → wfEntries (removeKey k es) = true := by
  intro es
  induction es with
  | nil => intro h; rfl
  | cons e r ih =>
      intro h
      obtain ⟨k2, v⟩ := e
      simp only [wfEntries, Bool.and_eq_true] at h
      by_cases hk : k2 = k
      · simp only [removeKey, if_pos hk]
        exact h.2
      · simp only [removeKey, if_neg hk, wfEntries, Bool.and_eq_true]
        exact ⟨h.1, ih h.2⟩

theorem wfEntries_setKey (k : String) {w : Json} : ∀ {es : List (String × Json)},
    wfJson w = true → wfEntries es = true → wfEntries (setKey k w es) = true := by
  intro es
  induction es with
  | nil => intro hw h; rfl
  | cons e r ih =>
      intro hw h
      obtain ⟨k2, v⟩ := e
      simp only [wfEntries, Bool.and_eq_true] at h
      by_cases hk : k2 = k
      · simp only [setKey, if_pos hk, wfEntries, Bool.and_eq_true]
        exact ⟨hw, h.2⟩
      · simp only [setKey, if_neg hk, wfEntries, Bool.and_eq_true]
        exact ⟨h.1, ih hw h.2⟩

theorem findVal_mem {k : String} {v : Json} : ∀ {es : List (String × Json)},
    findVal k es = some v → (k, v) ∈ es := by
  intro es
  induction es with
  | nil => intro h; exact nomatch h
  | cons e r ih =>
      intro h
      obtain ⟨k2, v2⟩ := e
      by_cases hk : k2 = k
      · subst hk
        have hv : v2 = v := by simpa [findVal] using h
        subst hv
        exact List.mem_cons_self _ _
      · simp only [findVal, if_neg hk] at h
        exact List.mem_cons_of_mem _ (ih h)

theorem wfJson_pySlice3 {v w : Json} (h : pySlice3 v = .ok w)
    (hv : wfJson v = true) : wfJson w = true := by
  cases v with
  | str s => injection h with h; subst h; rfl
  | arr l =>
      injection h with h
      subst h
      simp only [wfJson] at hv ⊢
      exact wfItems_take 3 hv
  | null => exact nomatch h
  | bool b => exact nomatch h
  | num n => exact nomatch h
  | obj es => exact nomatch h

theorem length_removeKey_le (k : String) : ∀ es : List (String × Json),
    (removeKey k es).length ≤ es.length := by
  intro es
  induction es with
  | nil => simp [removeKey]
  | cons e r ih =>
      obtain ⟨k2, v⟩ := e
      by_cases hk : k2 = k
      · simp only [removeKey, if_pos hk, List.length_cons]
        omega
      · simp only [removeKey, if_neg hk, List.length_cons]
        omega

theorem length_setKey (k : String) (w : Json) : ∀ es : List (String × Json),
    (setKey k w es).length = es.length := by
  intro es
  induction es with
  | nil => rfl
  | cons e r ih =>
      obtain ⟨k2, v⟩ := e
      by_cases hk : k2 = k
      · simp [setKey, if_pos hk]
      · simp [setKey, if_neg hk, ih]

theorem patternStep_length {es es1 : List (String × Json)}
    (h : patternStep es = .ok es1) : es1.length ≤ es.length := by
  rcases patternStep_ok_cases h with rfl | ⟨v, n, hv, hn, h50, rfl⟩
  · exact le_rfl
  · exact length_removeKey_le "pattern" es

theorem anyOfStep_length {es es2 : List (String × Json)}
    (h : anyOfStep es = .ok es2) : es2.length = es.length := by
  rcases anyOfStep_ok_cases h with rfl | ⟨v, n, w, hv, hn, h5, hw, rfl⟩
  · rfl
  · exact length_setKey "anyOf" w es

theorem simplify_obj_shape {es : List (String × Json)} {r : Json}
    (h : simplify_schema_for_llm (.obj es) = .ok r) :
    ∃ es3, r = .obj es3 ∧ es3.length ≤ es.length := by
  obtain ⟨es1, esm, es3, h1, h2, h3, rfl⟩ := (simplify_obj_ok_iff es r).mp h
  refine ⟨es3, rfl, ?_⟩
  have l1 : es1.length ≤ es.length := patternStep_length h1
  have l2 : esm.length = es1.length := anyOfStep_length h2
  have l3 : esm.length = es3.length := List.Forall₂.length_eq h3
  omega

theorem pyLen_simplifyValue {v v2 : Json} {n : Nat} (h : simplifyValue v = .ok v2)
    (hn : pyLen v = .ok n) : ∃ m, pyLen v2 = .ok m ∧ m ≤ n := by
  cases v with
  | str s =>
      rw [simplifyValue_str] at h
      injection h with h
      subst h
      exact ⟨n, hn, le_rfl⟩
  | arr l =>
      obtain ⟨l2, rfl, hF⟩ := simplifyValue_arr_ok h
      injection hn with hn
      subst hn
      exact ⟨l2.length, rfl, by rw [← List.Forall₂.length_eq hF]⟩
  | obj es =>
      obtain ⟨es3, rfl, hlen⟩ := simplify_obj_shape h
      injection hn with hn
      subst hn
      exact ⟨es3.length, rfl, hlen⟩
  | null => exact nomatch hn
  | bool b => exact nomatch hn
  | num m => exact nomatch hn

theorem patternStep_err {es : List (String × Json)} {v : Json} {e : String}
    (hv : findVal "pattern" es = some v) (hn : pyLen v = .error e) :
    patternStep es = .error e := by
  simp [patternStep, hv, hn]

theorem anyOfStep_err {es : List (String × Json)} {v : Json} {e : String}
    (hv : findVal "anyOf" es = some v) (hn : pyLen v = .error e) :
    anyOfStep es = .error e := by
  simp [anyOfStep, hv, hn]

theorem forall2_mem_right {α β : Type} {R : α → β → Prop} :
    ∀ {l : List α} {m : List β}, List.Forall₂ R l m → ∀ q ∈ m, ∃ p ∈ l, R p q := by
  intro l m h
  induction h with
  | nil => intro q hq; cases hq
  | cons hpq hrest ih =>
      intro q hq
      rcases List.mem_cons.mp hq with rfl | hq2
      · exact ⟨_, List.mem_cons_self _ _, hpq⟩
      · obtain ⟨p, hp, hR⟩ := ih q hq2
        exact ⟨p, List.mem_cons_of_mem _ hp, hR⟩

theorem forall2_diag_entries : ∀ {es : List (String × Json)},
    (∀ p ∈ es, simplifyValue p.2 = .ok p.2) →
    List.Forall₂ (fun p q => p.1 = q.1 ∧ simplifyValue p.2 = .ok q.2) es es := by
  intro es
  induction es with
  | nil => intro h; exact List.Forall₂.nil
  | cons e r ih =>
      intro h
      exact List.Forall₂.cons ⟨rfl, h e (List.mem_cons_self _ _)⟩
        (ih (fun p hp => h p (List.mem_cons_of_mem _ hp)))

theorem goItems_fix_of : ∀ {l l2 : List Json},
    List.Forall₂ (fun w w2 => simplifyItem w = .ok w2) l l2 →
    (∀ w w2, w ∈ l → simplifyItem w = .ok w2 → simplifyItem w2 = .ok w2) →
    goItems (fun j => simplify_schema_for_llm j) l2 = .ok l2 := by
  intro l l2 hF
  induction hF with
  | nil => intro h; rfl
  | cons hw hrest ih =>
      intro hit
      rename_i w w2 l' l2'
      have h2 : simplifyItem w2 = .ok w2 := hit w w2 (List.mem_cons_self _ _) hw
      simp only [goItems, (itemStep_simplify w2).trans h2,
        ih (fun a b ha hb => hit a b (List.mem_cons_of_mem _ ha) hb)]

/-- Fixpoint lemma behind idempotence: on a well-formed input, a successful
output of the transform is itself left unchanged by the transform. -/
theorem simplify_fix : ∀ (N : Nat) (j : Json), jsize j ≤ N → wfJson j = true →
    ∀ r, simplify_schema_for_llm j = .ok r → simplify_schema_for_llm r = .ok r := by
  intro N
  induction N with
  | zero => intro j h _ r _; exact absurd (jsize_pos j) (by omega)
  | succ N ih =>
      intro j hsz hwf r h
      cases j with
      | null =>
          rw [show simplify_schema_for_llm Json.null = .ok Json.null from rfl] at h
          injection h with h
          subst h
          rfl
      | bool b =>
          rw [show simplify_schema_for_llm (Json.bool b) = .ok (Json.bool b) from rfl] at h
          injection h with h
          subst h
          rfl
      | num n =>
          rw [show simplify_schema_for_llm (Json.num n) = .ok (Json.num n) from rfl] at h
          injection h with h
          subst h
          rfl
      | str s =>
          rw [show simplify_schema_for_llm (Json.str s) = .ok (Json.str s) from rfl] at h
          injection h with h
          subst h
          rfl
      | arr l =>
          rw [show simplify_schema_for_llm (Json.arr l) = .ok (Json.arr l) from rfl] at h
          injection h with h
          subst h
          rfl
      | obj es =>
          obtain ⟨es1, esm, es3, h1, h2, h3, rfl⟩ := (simplify_obj_ok_iff es r).mp h
          have hszes : esize es ≤ N := by
            simp only [jsize] at hsz; omega
          have hwf2 : (es.map Prod.fst).Nodup ∧ wfEntries es = true := by
            simp only [wfJson, Bool.and_eq_true, decide_eq_true_eq] at hwf
            exact hwf
          obtain ⟨hnd, hwfe⟩ := hwf2
          have hsz1 : esize es1 ≤ esize es := patternStep_size h1
          have hszm : esize esm ≤ esize es1 := anyOfStep_size h2
          have hwfe1 : wfEntries es1 = true := by
            rcases patternStep_ok_cases h1 with rfl | ⟨v, n, hv, hn, h50, rfl⟩
            · exact hwfe
            · exact wfEntries_removeKey "pattern" hwfe
          have hwfem : wfEntries esm = true := by
            rcases anyOfStep_ok_cases h2 with rfl | ⟨v, n, w, hv, hn, h5, hw, rfl⟩
            · exact hwfe1
            · exact wfEntries_setKey "anyOf"
                (wfJson_pySlice3 hw (wfEntries_mem hwfe1 (findVal_mem hv))) hwfe1
          have hval : ∀ v v2 : Json, jsize v ≤ N → wfJson v = true →
              simplifyValue v = .ok v2 → simplifyValue v2 = .ok v2 := by
            intro v v2 hszv hwfv hv
            cases v with
            | obj esv =>
                obtain ⟨es3v, rfl, _⟩ := simplify_obj_shape hv
                exact ih (Json.obj esv) hszv hwfv _ hv
            | arr l =>
                obtain ⟨l2, rfl, hF⟩ := simplifyValue_arr_ok hv
                have hsl : lsize l ≤ N := by simp only [jsize] at hszv; omega
                have hg : goItems (fun j => simplify_schema_for_llm j) l2 = .ok l2 := by
                  apply goItems_fix_of hF
                  intro w w2 hwmem hww
                  cases w with
                  | obj esw =>
                      have hszw : jsize (Json.obj esw) ≤ N :=
                        le_trans (jsize_le_of_mem_items hwmem) hsl
                      have hwfw : wfJson (Json.obj esw) = true :=
                        wfItems_mem (by simpa [wfJson] using hwfv) hwmem
                      obtain ⟨esw3, rfl, _⟩ := simplify_obj_shape
                        (hww : simplify_schema_for_llm (Json.obj esw) = .ok w2)
                      exact ih (Json.obj esw) hszw hwfw _ hww
                  | null => injection hww with hww; subst hww; rfl
                  | bool b => injection hww with hww; subst hww; rfl
                  | num n => injection hww with hww; subst hww; rfl
                  | str s => injection hww with hww; subst hww; rfl
                  | arr lw => injection hww with hww; subst hww; rfl
                simp only [simplifyValue, valueStep, hg]
            | str s =>
                rw [simplifyValue_str] at hv
                injection hv with hv
                subst hv
                rfl
            | null => injection hv with hv; subst hv; rfl
            | bool b => injection hv with hv; subst hv; rfl
            | num n => injection hv with hv; subst hv; rfl
          have hdiag : ∀ p ∈ es3, simplifyValue p.2 = .ok p.2 := by
            intro q hq
            obtain ⟨p, hp, hpq⟩ := forall2_mem_right h3 q hq
            obtain ⟨k, v⟩ := p
            have hszv : jsize v ≤ N :=
              le_trans (jsize_le_of_mem_entries hp)
                (le_trans hszm (le_trans hsz1 hszes))
            have hwfv : wfJson v = true := wfEntries_mem hwfem hp
            have := hval v q.2 hszv hwfv hpq.2
            exact this
          apply (simplify_obj_ok_iff es3 _).mpr
          refine ⟨es3, es3, es3, ?_, ?_, forall2_diag_entries hdiag, rfl⟩
          · cases hv : findVal "pattern" es with
            | none =>
                have he1 : es = es1 := by
                  rw [patternStep_none hv] at h1
                  exact Except.ok.inj h1
                subst he1
                have hm : findVal "pattern" esm = none := by
                  rw [findVal_anyOfStep (by decide) h2]; exact hv
                exact patternStep_none
                  ((findVal_forall2 (fun a b => simplifyValue a = .ok b) h3 "pattern").1 hm)
            | some v =>
                cases hn : pyLen v with
                | error e => rw [patternStep_err hv hn] at h1; exact nomatch h1
                | ok n =>
                    by_cases h50 : 50 < n
                    · have he1 : removeKey "pattern" es = es1 := by
                        rw [patternStep_del hv hn h50] at h1
                        exact Except.ok.inj h1
                      subst he1
                      have hm : findVal "pattern" esm = none := by
                        rw [findVal_anyOfStep (by decide) h2]
                        exact findVal_removeKey_self "pattern" es hnd
                      exact patternStep_none
                        ((findVal_forall2 (fun a b => simplifyValue a = .ok b) h3 "pattern").1 hm)
                    · have he1 : es = es1 := by
                        rw [patternStep_keep hv hn (by omega)] at h1
                        exact Except.ok.inj h1
                      subst he1
                      have hm : findVal "pattern" esm = some v := by
                        rw [findVal_anyOfStep (by decide) h2]; exact hv
                      obtain ⟨w, hw3, hV⟩ :=
                        (findVal_forall2 (fun a b => simplifyValue a = .ok b) h3 "pattern").2 _ hm
                      obtain ⟨m, hm2, hmle⟩ := pyLen_simplifyValue hV hn
                      exact patternStep_keep hw3 hm2 (by omega)
          · cases hv : findVal "anyOf" es1 with
            | none =>
                have hem : es1 = esm := by
                  rw [anyOfStep_none hv] at h2
                  exact Except.ok.inj h2
                subst hem
                exact anyOfStep_none
                  ((findVal_forall2 (fun a b => simplifyValue a = .ok b) h3 "anyOf").1 hv)
            | some v =>
                cases hn : pyLen v with
                | error e => rw [anyOfStep_err hv hn] at h2; exact nomatch h2
                | ok n =>
                    by_cases h5 : 5 < n
                    · cases hw : pySlice3 v with
                      | error e =>
                          rw [show anyOfStep es1 = .error e by simp [anyOfStep, hv, hn, h5, hw]] at h2
                          exact nomatch h2
                      | ok w =>
                          have hem : setKey "anyOf" w es1 = esm := by
                            rw [anyOfStep_trunc hv hn h5 hw] at h2
                            exact Except.ok.inj h2
                          subst hem
                          have hm : findVal "anyOf" (setKey "anyOf" w es1) = some w :=
                            findVal_setKey_self "anyOf" w es1 v hv
                          obtain ⟨w2, hw3, hV⟩ :=
                            (findVal_forall2 (fun a b => simplifyValue a = .ok b) h3 "anyOf").2 _ hm
                          have hlw : ∃ m3, pyLen w = .ok m3 ∧ m3 ≤ 3 := by
                            cases v with
                            | str s =>
                                injection hw with hw
                                subst hw
                                refine ⟨(s.toList.take 3).length, rfl, ?_⟩
                                simp [List.length_take]
                            | arr l =>
                                injection hw with hw
                                subst hw
                                refine ⟨(l.take 3).length, rfl, ?_⟩
                                simp [List.length_take]
                            | null => exact nomatch hw
                            | bool b => exact nomatch hw
                            | num m => exact nomatch hw
                            | obj eso => exact nomatch hw
                          obtain ⟨m3, hm3, h3le⟩ := hlw
                          obtain ⟨m, hm2, hmle⟩ := pyLen_simplifyValue hV hm3
                          exact anyOfStep_keep hw3 hm2 (by omega)
                    · have hem : es1 = esm := by
                        rw [anyOfStep_keep hv hn (by omega)] at h2
                        exact Except.ok.inj h2
                      subst hem
                      obtain ⟨w, hw3, hV⟩ :=
                        (findVal_forall2 (fun a b => simplifyValue a = .ok b) h3 "anyOf").2 _ hv
                      obtain ⟨m, hm2, hmle⟩ := pyLen_simplifyValue hV hn
                      exact anyOfStep_keep hw3 hm2 (by omega)

/-- Claim C3.  `simplify_schema_for_llm` is idempotent: on any well-formed
input (every dict has distinct keys, as Python dicts guarantee), applying the
transform twice yields the same result as applying it once — in particular a
raised exception propagates identically, and a successful output is a fixed
point. -/
theorem C3_idempotent (j : Json) (hwf : wfJson j = true) :
    Except.bind (simplify_schema_for_llm j) (fun r => simplify_schema_for_llm r) =
      simplify_schema_for_llm j := by
  cases h : simplify_schema_for_llm j with
  | error e => rfl
  | ok r =>
      show simplify_schema_for_llm r = Except.ok r
      exact simplify_fix (jsize j) j le_rfl hwf r h

/-- Claim C3, witness: idempotence at a concrete schema exercising both the
pattern deletion and the union truncation. -/
theorem C3_witness :
    wfJson (Json.obj [("pattern", Json.str longPat),
        ("anyOf", Json.arr [Json.obj [("pattern", Json.str longPat)], Json.num 2,
          Json.num 3, Json.num 4, Json.num 5, Json.num 6, Json.num 7])]) = true ∧
    Except.bind (simplify_schema_for_llm (Json.obj [("pattern", Json.str longPat),
        ("anyOf", Json.arr [Json.obj [("pattern", Json.str longPat)], Json.num 2,
          Json.num 3, Json.num 4, Json.num 5, Json.num 6, Json.num 7])]))
        (fun r => simplify_schema_for_llm r) =
      simplify_schema_for_llm (Json.obj [("pattern", Json.str longPat),
        ("anyOf", Json.arr [Json.obj [("pattern", Json.str longPat)], Json.num 2,
          Json.num 3, Json.num 4, Json.num 5, Json.num 6, Json.num 7])]) := by
  refine ⟨by decide, ?_⟩
  exact C3_idempotent _ (by decide)

theorem allNodesItems_mem {p : List (String × Json) → Bool} :
    ∀ {l : List Json} {w : Json},
      allNodesItems p l = true → w ∈ l → allNodes p w = true := by
  intro l
  induction l with
  | nil => intro w h hw; cases hw
  | cons j r ih =>
      intro w h hw
      simp only [allNodesItems, Bool.and_eq_true] at h
      rcases List.mem_cons.mp hw with rfl | hw2
      · exact h.1
      · exact ih h.2 hw2

theorem allNodesEntries_mem {p : List (String × Json) → Bool} :
    ∀ {es : List (String × Json)} {k : String} {v : Json},
      allNodesEntries p es = true → (k, v) ∈ es → allNodes p v = true := by
  intro es
  induction es with
  | nil => intro k v h hv; cases hv
  | cons e r ih =>
      intro k v h hv
      obtain ⟨k2, v2⟩ := e
      simp only [allNodesEntries, Bool.and_eq_true] at h
      rcases List.mem_cons.mp hv with h1 | hv2
      · obtain ⟨rfl, rfl⟩ := Prod.mk.injEq .. ▸ h1
        exact h.1
      · exact ih h.2 hv2

theorem allNodesItems_take {p : List (String × Json) → Bool} (n : Nat) :
    ∀ {l : List Json}, allNodesItems p l = true → allNodesItems p (l.take n) = true := by
  induction n with
  | zero => intro l h; rfl
  | succ n ih =>
      intro l h
      cases l with
      | nil => rfl
      | cons j r =>
          simp only [allNodesItems, Bool.and_eq_true] at h
          simp only [List.take_succ_cons, allNodesItems, Bool.and_eq_true]
          exact ⟨h.1, ih h.2⟩

theorem mem_removeKey {k : String} {p : String × Json} :
    ∀ {es : List (String × Json)}, p ∈ removeKey k es → p ∈ es := by
  intro es
  induction es with
  | nil => intro h; exact absurd h (by simp [removeKey])
  | cons e r ih =>
      intro h
      obtain ⟨k2, v⟩ := e
      by_cases hk : k2 = k
      · simp only [removeKey, if_pos hk] at h
        exact List.mem_cons_of_mem _ h
      · simp only [removeKey, if_neg hk, List.mem_cons] at h
        rcases h with rfl | h2
        · exact List.mem_cons_self _ _
        · exact List.mem_cons_of_mem _ (ih h2)

theorem mem_setKey {k : String} {w : Json} {p : String × Json} :
    ∀ {es : List (String × Json)}, p ∈ setKey k w es → p ∈ es ∨ p.2 = w := by
  intro es
  induction es with
  | nil => intro h; simp [setKey] at h
  | cons e r ih =>
      intro h
      obtain ⟨k2, v⟩ := e
      by_cases hk : k2 = k
      · simp only [setKey, if_pos hk, List.mem_cons] at h
        rcases h with rfl | h2
        · exact Or.inr rfl
        · exact Or.inl (List.mem_cons_of_mem _ h2)
      · simp only [setKey, if_neg hk, List.mem_cons] at h
        rcases h with rfl | h2
        · exact Or.inl (List.mem_cons_self _ _)
        · rcases ih h2 with h3 | h3
          · exact Or.inl (List.mem_cons_of_mem _ h3)
          · exact Or.inr h3

theorem simplify_obj_pattern_err {es : List (String × Json)} {e : String}
    (h : patternStep es = .error e) :
    simplify_schema_for_llm (.obj es) = .error e := by
  rw [simplify_obj]
  unfold simpObj
  split
  · rename_i e2 heq
    rw [heq] at h
    rw [Except.error.inj h]
  · rename_i es1 heq
    rw [heq] at h
    exact nomatch h

theorem goItems_total_of : ∀ (l : List Json),
    (∀ w ∈ l, ∃ w2, itemStep (fun j => simplify_schema_for_llm j) w = .ok w2) →
    ∃ l2, goItems (fun j => simplify_schema_for_llm j) l = .ok l2 := by
  intro l
  induction l with
  | nil => intro h; exact ⟨[], rfl⟩
  | cons w r ih =>
      intro h
      obtain ⟨w2, hw2⟩ := h w (List.mem_cons_self _ _)
      obtain ⟨r2, hr2⟩ := ih (fun a ha => h a (List.mem_cons_of_mem _ ha))
      exact ⟨w2 :: r2, by simp only [goItems, hw2, hr2]⟩

theorem goEntries_total_of : ∀ (es : List (String × Json)),
    (∀ p ∈ es, ∃ v2, valueStep (fun j => simplify_schema_for_llm j) p.2 = .ok v2) →
    ∃ es3, goEntries (fun j => simplify_schema_for_llm j) es = .ok es3 := by
  intro es
  induction es with
  | nil => intro h; exact ⟨[], rfl⟩
  | cons e r ih =>
      intro h
      obtain ⟨k, v⟩ := e
      obtain ⟨v2, hv2⟩ := h (k, v) (List.mem_cons_self _ _)
      obtain ⟨r2, hr2⟩ := ih (fun a ha => h a (List.mem_cons_of_mem _ ha))
      exact ⟨(k, v2) :: r2, by simp only [goEntries, hv2, hr2]⟩

/-- Totality of the transform on inputs whose `pattern` values are strings
and whose `anyOf` values are lists. -/
theorem simplify_total : ∀ (N : Nat) (j : Json), jsize j ≤ N →
    allNodes safeNode j = true → ∃ r, simplify_schema_for_llm j = .ok r := by
  intro N
  induction N with
  | zero => intro j h _; exact absurd (jsize_pos j) (by omega)
  | succ N ih =>
      intro j hsz hsafe
      cases j with
      | obj es =>
          have hszes : esize es ≤ N := by simp only [jsize] at hsz; omega
          simp only [allNodes, Bool.and_eq_true] at hsafe
          obtain ⟨hnode, hentries⟩ := hsafe
          simp only [safeNode, Bool.and_eq_true] at hnode
          obtain ⟨hpat, hany⟩ := hnode
          obtain ⟨es1, hp1, hsub1⟩ : ∃ es1, patternStep es = .ok es1 ∧
              ∀ p ∈ es1, p ∈ es := by
            unfold patStr at hpat
            cases hv : findVal "pattern" es with
            | none => exact ⟨es, patternStep_none hv, fun p hp => hp⟩
            | some v =>
                rw [hv] at hpat
                cases v with
                | str s =>
                    by_cases h50 : 50 < s.length
                    · exact ⟨removeKey "pattern" es, patternStep_del hv rfl h50,
                        fun p hp => mem_removeKey hp⟩
                    · exact ⟨es, patternStep_keep hv rfl (by omega), fun p hp => hp⟩
                | null => exact nomatch hpat
                | bool b => exact nomatch hpat
                | num m => exact nomatch hpat
                | arr l => exact nomatch hpat
                | obj eso => exact nomatch hpat
          have hanyes1 : findVal "anyOf" es1 = findVal "anyOf" es :=
            findVal_patternStep (by decide) hp1
          have hv1 : ∀ p ∈ es1, allNodes safeNode p.2 = true ∧ jsize p.2 ≤ N := by
            intro p hp
            have hpe := hsub1 p hp
            obtain ⟨k, v⟩ := p
            exact ⟨allNodesEntries_mem hentries hpe,
              le_trans (jsize_le_of_mem_entries hpe) hszes⟩
          obtain ⟨es2, hp2, hval2⟩ : ∃ es2, anyOfStep es1 = .ok es2 ∧
              ∀ p ∈ es2, allNodes safeNode p.2 = true ∧ jsize p.2 ≤ N := by
            cases hv : findVal "anyOf" es1 with
            | none => exact ⟨es1, anyOfStep_none hv, hv1⟩
            | some v =>
                rw [hanyes1] at hv
                rw [hv] at hany
                cases v with
                | arr l =>
                    by_cases h5 : 5 < l.length
                    · have hvv : findVal "anyOf" es1 = some (Json.arr l) := by
                        rw [hanyes1]; exact hv
                      refine ⟨setKey "anyOf" (.arr (l.take 3)) es1,
                        anyOfStep_trunc hvv rfl h5 rfl, ?_⟩
                      intro p hp
                      rcases mem_setKey hp with hp2 | hp2
                      · exact hv1 p hp2
                      · have hmem : ("anyOf", Json.arr l) ∈ es := findVal_mem hv
                        have hsafe2 : allNodes safeNode (Json.arr l) = true :=
                          allNodesEntries_mem hentries hmem
                        have hsz2 : jsize (Json.arr l) ≤ N :=
                          le_trans (jsize_le_of_mem_entries hmem) hszes
                        rw [hp2]
                        constructor
                        · simp only [allNodes] at hsafe2 ⊢
                          exact allNodesItems_take 3 hsafe2
                        · simp only [jsize] at hsz2 ⊢
                          have := lsize_take_le l 3
                          omega
                    · have hvv : findVal "anyOf" es1 = some (Json.arr l) := by
                        rw [hanyes1]; exact hv
                      exact ⟨es1, anyOfStep_keep hvv rfl (by omega), hv1⟩
                | null => exact nomatch hany
                | bool b => exact nomatch hany
                | num m => exact nomatch hany
                | str s => exact nomatch hany
                | obj eso => exact nomatch hany
          obtain ⟨es3, hg⟩ : ∃ es3,
              goEntries (fun j2 => simplify_schema_for_llm j2) es2 = .ok es3 := by
            apply goEntries_total_of
            intro p hp
            obtain ⟨hs, hszp⟩ := hval2 p hp
            obtain ⟨k, v⟩ := p
            cases v with
            | obj esv => exact ih (Json.obj esv) hszp hs
            | arr l =>
                have hsl : lsize l ≤ N := by simp only [jsize] at hszp; omega
                obtain ⟨l2, hl2⟩ : ∃ l2,
                    goItems (fun j2 => simplify_schema_for_llm j2) l = .ok l2 := by
                  apply goItems_total_of
                  intro w hw
                  cases w with
                  | obj esw =>
                      exact ih (Json.obj esw)
                        (le_trans (jsize_le_of_mem_items hw) hsl)
                        (allNodesItems_mem (by simpa [allNodes] using hs) hw)
                  | null => exact ⟨_, rfl⟩
                  | bool b => exact ⟨_, rfl⟩
                  | num m => exact ⟨_, rfl⟩
                  | str s => exact ⟨_, rfl⟩
                  | arr lw => exact ⟨_, rfl⟩
                exact ⟨Json.arr l2, by simp only [valueStep, hl2]⟩
            | null => exact ⟨_, rfl⟩
            | bool b => exact ⟨_, rfl⟩
            | num m => exact ⟨_, rfl⟩
            | str s => exact ⟨_, rfl⟩
          exact ⟨.obj es3, (simplify_obj_ok_iff es _).mpr
            ⟨es1, es2, es3, hp1, hp2, (goEntries_ok_iff _ es2 es3).mp hg, rfl⟩⟩
      | null => exact ⟨_, rfl⟩
      | bool b => exact ⟨_, rfl⟩
      | num n => exact ⟨_, rfl⟩
      | str s => exact ⟨_, rfl⟩
      | arr l => exact ⟨_, rfl⟩

/-- Claim C10, counterexample.  The claim's final conjunct says the transform
is total whenever every `pattern` value is a string, but `len(schema['anyOf'])`
on line 49 is applied to whatever the `anyOf` key holds: on
`{"anyOf": 0}` — which has no `pattern` key at all, so the precondition holds
vacuously — the transform raises a `TypeError`. -/
theorem C10_counterexample :
    allNodes patStr (Json.obj [("anyOf", Json.num 0)]) = true ∧
    simplify_schema_for_llm (Json.obj [("anyOf", Json.num 0)]) =
      .error "TypeError: object has no len()" := by
  exact ⟨by decide, rfl⟩

/-- Claim C10 (amended).  (1) A dict whose `pattern` key holds a value
without a length makes the transform raise a `TypeError` when that dict is
reached by the recursion (stated at the root, which each recursive call is).
(2) A sized non-string `pattern` value of length above 50 is deleted exactly
like a long string.  (3) The transform is total under the precondition that
every `pattern` value is a string AND every `anyOf` value is a list — the
`anyOf` condition is necessary (`C10_counterexample`). -/
theorem C10_error_behaviour :
    (∀ (es : List (String × Json)) (v : Json), findVal "pattern" es = some v →
      (∀ n, pyLen v ≠ .ok n) → ∃ e, simplify_schema_for_llm (.obj es) = .error e) ∧
    (∀ (es es2 : List (String × Json)) (v : Json) (n : Nat),
      (es.map Prod.fst).Nodup → simplify_schema_for_llm (.obj es) = .ok (.obj es2) →
      findVal "pattern" es = some v → pyLen v = .ok n → 50 < n →
      findVal "pattern" es2 = none) ∧
    (∀ j : Json, allNodes safeNode j = true → ∃ r, simplify_schema_for_llm j = .ok r) := by
  refine ⟨?_, ?_, ?_⟩
  · intro es v hv hne
    cases hn : pyLen v with
    | ok n => exact absurd hn (hne n)
    | error e => exact ⟨e, simplify_obj_pattern_err (patternStep_err hv hn)⟩
  · intro es es2 v n hnd h hv hn h50
    obtain ⟨es1, esm, es3, h1, h2, h3, heq⟩ := (simplify_obj_ok_iff es _).mp h
    injection heq with heq
    subst heq
    rw [patternStep_del hv hn h50] at h1
    injection h1 with h1
    subst h1
    have hm : findVal "pattern" esm = none := by
      rw [findVal_anyOfStep (by decide) h2]
      exact findVal_removeKey_self _ es hnd
    exact (findVal_forall2 (fun a b => simplifyValue a = .ok b) h3 "pattern").1 hm
  · intro j hsafe
    exact simplify_total (jsize j) j le_rfl hsafe

/-- Claim C10, witness: the three parts of `C10_error_behaviour` at concrete
inputs — a `None`-valued `pattern` raising, a 51-element list-valued
`pattern` being deleted, and a safe input succeeding. -/
theorem C10_witness :
    ((findVal "pattern" [("pattern", Json.null)] = some Json.null ∧
        ∃ e, simplify_schema_for_llm (.obj [("pattern", Json.null)]) = .error e) ∧
      (([("pattern", Json.arr (List.replicate 51 (Json.num 0)))].map Prod.fst).Nodup ∧
        simplify_schema_for_llm (.obj [("pattern",
          Json.arr (List.replicate 51 (Json.num 0)))]) = .ok (.obj []) ∧
        pyLen (Json.arr (List.replicate 51 (Json.num 0))) = .ok 51 ∧
        findVal "pattern" ([] : List (String × Json)) = none)) ∧
    (allNodes safeNode (Json.obj [("a", Json.num 1)]) = true ∧
      ∃ r, simplify_schema_for_llm (Json.obj [("a", Json.num 1)]) = .ok r) := by
  refine ⟨⟨⟨rfl, ?_⟩, ⟨by decide, rfl, rfl, ?_⟩⟩, ⟨by decide, ?_⟩⟩
  · exact C10_error_behaviour.1 [("pattern", Json.null)] Json.null rfl
      (fun n h => nomatch h)
  · exact C10_error_behaviour.2.1 [("pattern", Json.arr (List.replicate 51 (Json.num 0)))]
      [] (Json.arr (List.replicate 51 (Json.num 0))) 51 (by decide) rfl rfl rfl
      (by omega)
  · exact C10_error_behaviour.2.2 (Json.obj [("a", Json.num 1)]) (by decide)

theorem processModels_result : ∀ models : List ModelEntry,
    (processModels models).2 =
      models.filterMap (fun m => (modelOutcome m).map (fun s => (m.name, s))) := by
  intro models
  induction models with
  | nil => rfl
  | cons m rest ih =>
      cases hm : modelOutcome m with
      | none => simp [processModels, hm, List.filterMap_cons, ih]
      | some s => simp [processModels, hm, List.filterMap_cons, ih]

theorem processModels_files : ∀ models : List ModelEntry,
    (processModels models).1 =
      (processModels models).2.map (fun p => (schemaFileName p.1, p.2)) := by
  intro models
  induction models with
  | nil => rfl
  | cons m rest ih =>
      cases hm : modelOutcome m with
      | none => simp only [processModels, hm, ih]
      | some s => simp only [processModels, hm, List.map_cons, ih]

theorem processModels_names : ∀ models : List ModelEntry,
    (processModels models).2.map Prod.fst =
      (models.filter (fun m => (modelOutcome m).isSome)).map ModelEntry.name := by
  intro models
  induction models with
  | nil => rfl
  | cons m rest ih =>
      cases hm : modelOutcome m with
      | none => simp [processModels, hm, List.filter_cons, ih]
      | some s => simp [processModels, hm, List.filter_cons, ih]

theorem findVal_append_left {k : String} {v : Json} :
    ∀ {l r : List (String × Json)}, findVal k l = some v →
      findVal k (l ++ r) = some v := by
  intro l
  induction l with
  | nil => intro r h; exact nomatch h
  | cons e rest ih =>
      intro r h
      obtain ⟨k2, v2⟩ := e
      by_cases hk : k2 = k
      · simp only [findVal, if_pos hk] at h ⊢
        exact h
      · simp only [findVal, if_neg hk] at h ⊢
        exact ih h

theorem str_append_cancel {a b c : String} (h : a ++ c = b ++ c) : a = b := by
  have hd := congrArg String.data h
  simp only [String.data_append] at hd
  exact String.ext (List.append_cancel_right hd)

theorem findVal_fileMap : ∀ {es : List (String × Json)},
    (es.map (fun p => strLower p.1)).Nodup → ∀ {k : String} {v : Json},
    findVal k es = some v →
    findVal (schemaFileName k) (es.map (fun p => (schemaFileName p.1, p.2))) = some v := by
  intro es
  induction es with
  | nil => intro _ k v h; exact nomatch h
  | cons e rest ih =>
      intro hnd k v h
      obtain ⟨k2, v2⟩ := e
      simp only [List.map_cons, List.nodup_cons] at hnd
      obtain ⟨hhead, hnd2⟩ := hnd
      by_cases hk : k2 = k
      · subst hk
        have hv : v2 = v := by simpa [findVal] using h
        subst hv
        simp [findVal]
      · simp only [findVal, if_neg hk] at h
        have hne : ¬ (schemaFileName k2 = schemaFileName k) := by
          intro he
          have hl : strLower k2 = strLower k := str_append_cancel he
          have hkmem : strLower k ∈ rest.map (fun p => strLower p.1) :=
            List.mem_map.mpr ⟨(k, v), findVal_mem h, rfl⟩
          rw [hl] at hhead
          exact hhead hkmem
        simp only [List.map_cons, findVal, if_neg hne]
        exact ih hnd2 h

theorem findVal_keyed_map (g : String → Json) :
    ∀ (es : List (String × Json)) (name : String),
      name ∈ es.map Prod.fst →
      findVal name (es.map (fun p => (p.1, g p.1))) = some (g name) := by
  intro es
  induction es with
  | nil => intro name h; exact absurd h (by simp)
  | cons e r ih =>
      intro name h
      obtain ⟨k, v⟩ := e
      by_cases hk : k = name
      · subst hk
        simp [findVal]
      · simp only [List.map_cons, List.mem_cons] at h
        rcases h with h | h
        · exact absurd h.symm hk
        · simp only [List.map_cons, findVal, if_neg hk]
          exact ih name h

/-- Claim C5.  If one registered model fails (its export raises, the
simplification raises, or its file write fails), it is absent from the
extraction result set — hence from the keys of `all_schemas.json` and from
the summary's name list, both of which are built from that set — while every
other fully processed model still gets its entry and its individual file,
and the result set has exactly one entry per fully processed model. -/
theorem C5_per_model_failure (ts : String) (models : List ModelEntry)
    (m : ModelEntry) (hm : m ∈ models) (hfail : modelOutcome m = none)
    (hnd : (models.map ModelEntry.name).Nodup) :
    m.name ∉ (extract_schemas ts models).result.map Prod.fst ∧
    (∀ m2 ∈ models, modelOutcome m2 ≠ none →
      m2.name ∈ (extract_schemas ts models).result.map Prod.fst ∧
      ∃ s, modelOutcome m2 = some s ∧
        (schemaFileName m2.name, s) ∈ (extract_schemas ts models).files) ∧
    (extract_schemas ts models).result.length =
      (models.filter (fun x => (modelOutcome x).isSome)).length := by
  refine ⟨?_, ?_, ?_⟩
  · intro hmem
    rw [show (extract_schemas ts models).result = (processModels models).2 from rfl,
      processModels_names] at hmem
    obtain ⟨m2, hm2, hname⟩ := List.mem_map.mp hmem
    have hm2mem : m2 ∈ models := List.mem_of_mem_filter hm2
    have hm2some : (modelOutcome m2).isSome = true := by
      simpa using List.of_mem_filter hm2
    have heq : m2 = m := List.inj_on_of_nodup_map hnd hm2mem hm hname
    rw [heq, hfail] at hm2some
    exact nomatch hm2some
  · intro m2 hm2 hne
    obtain ⟨s, hs⟩ : ∃ s, modelOutcome m2 = some s := by
      cases ho : modelOutcome m2 with
      | none => exact absurd ho hne
      | some s => exact ⟨s, rfl⟩
    constructor
    · rw [show (extract_schemas ts models).result = (processModels models).2 from rfl,
        processModels_names]
      exact List.mem_map.mpr ⟨m2, List.mem_filter.mpr ⟨hm2, by simp [hs]⟩, rfl⟩
    · refine ⟨s, hs, ?_⟩
      have hres : (m2.name, s) ∈ (processModels models).2 := by
        rw [processModels_result]
        exact List.mem_filterMap.mpr ⟨m2, hm2, by simp [hs]⟩
      have hfiles : (schemaFileName m2.name, s) ∈ (processModels models).1 := by
        rw [processModels_files]
        exact List.mem_map.mpr ⟨(m2.name, s), hres, rfl⟩
      exact List.mem_append_left _ hfiles
  · rw [show (extract_schemas ts models).result = (processModels models).2 from rfl]
    have hlen := congrArg List.length (processModels_names models)
    simpa using hlen

/-- Claim C5, witness: a three-model registry whose middle model raises
during export; the other two are processed and written. -/
theorem C5_witness :
    ((⟨"B", .error "boom", true⟩ : ModelEntry) ∈
        ([⟨"A", .ok (Json.obj []), true⟩, ⟨"B", .error "boom", true⟩,
          ⟨"C", .ok (Json.obj []), true⟩] : List ModelEntry) ∧
      modelOutcome ⟨"B", .error "boom", true⟩ = none ∧
      (([⟨"A", .ok (Json.obj []), true⟩, ⟨"B", .error "boom", true⟩,
          ⟨"C", .ok (Json.obj []), true⟩] : List ModelEntry).map ModelEntry.name).Nodup) ∧
    ("B" ∉ (extract_schemas "t" [⟨"A", .ok (Json.obj []), true⟩,
        ⟨"B", .error "boom", true⟩, ⟨"C", .ok (Json.obj []), true⟩]).result.map Prod.fst ∧
      (extract_schemas "t" [⟨"A", .ok (Json.obj []), true⟩, ⟨"B", .error "boom", true⟩,
        ⟨"C", .ok (Json.obj []), true⟩]).result.length = 2) := by
  refine ⟨⟨List.mem_cons_of_mem _ (List.mem_cons_self _ _), rfl, by decide⟩, ?_, rfl⟩
  have h := C5_per_model_failure "t"
    [⟨"A", .ok (Json.obj []), true⟩, ⟨"B", .error "boom", true⟩,
      ⟨"C", .ok (Json.obj []), true⟩]
    ⟨"B", .error "boom", true⟩
    (List.mem_cons_of_mem _ (List.mem_cons_self _ _)) rfl (by decide)
  exact h.1

/-- Claim C6.  For every model successfully exported, the parsed content of
its individual file `<lowercased-name>.schema.json` equals its entry under
the model's name in `all_schemas.json`: both are the very same simplified
schema, recorded by lines 101-108.  Distinctness of the lowercased names
(true of the fixed registry) makes the file lookup unambiguous. -/
theorem C6_file_matches_combined (ts : String) (models : List ModelEntry)
    (hnd : (models.map (fun m => strLower m.name)).Nodup)
    (name : String) (s : Json)
    (hlook : findVal name (extract_schemas ts models).result = some s) :
    findVal (schemaFileName name) (extract_schemas ts models).files = some s := by
  have hshape : (processModels models).2.map (fun p => strLower p.1) =
      (models.filter (fun m => (modelOutcome m).isSome)).map (fun m => strLower m.name) := by
    have h1 : (processModels models).2.map (fun p => strLower p.1) =
        ((processModels models).2.map Prod.fst).map strLower := by
      rw [List.map_map]; rfl
    rw [h1, processModels_names models, List.map_map]
    rfl
  have hnd2 : ((processModels models).2.map (fun p => strLower p.1)).Nodup := by
    rw [hshape]
    exact List.Nodup.sublist ((List.filter_sublist models).map _) hnd
  have h1 : findVal (schemaFileName name) ((processModels models).1) = some s := by
    rw [processModels_files]
    exact findVal_fileMap hnd2 hlook
  exact findVal_append_left h1

/-- Claim C6, witness: a single successfully exported model; its file
`alpha.schema.json` holds exactly its `all_schemas.json` entry. -/
theorem C6_witness :
    ((([⟨"Alpha", .ok (Json.obj []), true⟩] : List ModelEntry).map
        (fun m => strLower m.name)).Nodup ∧
      findVal "Alpha" (extract_schemas "t"
        [⟨"Alpha", .ok (Json.obj []), true⟩]).result = some (Json.obj [])) ∧
    findVal (schemaFileName "Alpha") (extract_schemas "t"
      [⟨"Alpha", .ok (Json.obj []), true⟩]).files = some (Json.obj []) := by
  refine ⟨⟨by decide, rfl⟩, ?_⟩
  exact C6_file_matches_combined "t" [⟨"Alpha", .ok (Json.obj []), true⟩]
    (by decide) "Alpha" (Json.obj []) rfl

/-- Claim C7.  In `schema_summary.json`, `total_schemas` equals the number of
keys of `all_schemas.json`, `schema_names` is exactly that key list in
registry iteration order, and `file_locations` maps each successfully
extracted name to the string `<lowercased-name>.schema.json`. -/
theorem C7_summary_consistent (ts : String) (models : List ModelEntry)
    (ex : List (String × Json))
    (hc : (extract_schemas ts models).combined = .obj ex) :
    ∃ sem : List (String × Json), (extract_schemas ts models).summary = .obj sem ∧
      findVal "total_schemas" sem = some (.num ex.length) ∧
      findVal "schema_names" sem = some (.arr (ex.map (fun p => .str p.1))) ∧
      ∃ fl : List (String × Json), findVal "file_locations" sem = some (.obj fl) ∧
        ∀ name ∈ ex.map Prod.fst, findVal name fl = some (.str (schemaFileName name)) := by
  have hex : (processModels models).2 = ex := by
    injection hc with h
  subst hex
  refine ⟨_, rfl, ?_, ?_,
    (processModels models).2.map (fun p => (p.1, Json.str (schemaFileName p.1))), ?_, ?_⟩
  · simp [findVal]
  · simp [findVal]
  · simp [findVal]
  · intro name hname
    exact findVal_keyed_map (fun n => .str (schemaFileName n)) _ name hname

/-- Claim C7, witness: the summary of a one-model run. -/
theorem C7_witness :
    (extract_schemas "t" [⟨"Alpha", .ok (Json.obj []), true⟩]).combined =
      .obj [("Alpha", Json.obj [])] ∧
    (∃ sem : List (String × Json),
      (extract_schemas "t" [⟨"Alpha", .ok (Json.obj []), true⟩]).summary = .obj sem ∧
      findVal "total_schemas" sem =
        some (.num ([("Alpha", Json.obj [])] : List (String × Json)).length) ∧
      findVal "schema_names" sem =
        some (.arr (([("Alpha", Json.obj [])] : List (String × Json)).map
          (fun p => .str p.1))) ∧
      ∃ fl : List (String × Json), findVal "file_locations" sem = some (.obj fl) ∧
        ∀ name ∈ ([("Alpha", Json.obj [])] : List (String × Json)).map Prod.fst,
          findVal name fl = some (.str (schemaFileName name))) := by
  refine ⟨rfl, ?_⟩
  exact C7_summary_consistent "t" [⟨"Alpha", .ok (Json.obj []), true⟩]
    [("Alpha", Json.obj [])] rfl

/-- Claim C8.  The process exits non-zero exactly when the model-library
load fails, in which case no output file has been produced; in every other
run the exit status is zero regardless of per-model failures.  (Failures of
the operating system on the final combined/summary writes are outside the
model: the script's own error handling distinguishes only the import failure
and the per-model failures.) -/
theorem C8_exit_code (importOk : Bool) (ts : String) (models : List ModelEntry) :
    ((runScript importOk ts models).exitCode ≠ 0 ↔ importOk = false) ∧
    (importOk = false → (runScript importOk ts models).files = []) := by
  cases importOk <;> simp [runScript]

/-- Claim C8, witness: a failed import exits 1 with no files; a successful
one exits 0. -/
theorem C8_witness :
    (runScript false "t" []).exitCode = 1 ∧
    (runScript false "t" []).files = [] ∧
    (runScript true "t" []).exitCode = 0 :=
  ⟨rfl, (C8_exit_code false "t" []).2 rfl, rfl⟩
